import Mathlib

/-!
# Verification of the MBTA bus-data acquisition pipeline

A shallow embedding of the two pipeline scripts, `generate-bus-data-api.py`
(first-pass collection) and `retry-failed-routes.py` (repair run), together
with proofs of the specification's claims about them.

Modelling conventions:

* Python strings are `List Char`.
* Parsed JSON values are the inductive `Json`. JSON numbers are modelled as
  exact decimals `m / 10^d` (constructor `Json.num m d`), the image of
  Python's float `repr` without exponent notation; booleans and `null` do
  not occur in this pipeline's data and are omitted from the model.
* Python dicts are association lists `List (List Char × Json)` in insertion
  order; `setKey` models dict assignment (update in place, append if new),
  and `dedupFields` models the last-value-wins key collapse that
  `json.loads` performs while building a dict.
* `serJson` models `json.dump(x, f, indent=2, ensure_ascii=False)`;
  `jsonLoads` models `json.loads` (restricted to the grammar above:
  no `true`/`false`/`null` and no exponent notation in numbers, which the
  serializer never emits).
* The network is an oracle `Nat → Resp` giving the response of each attempt;
  `time.sleep` is modelled by accumulating the slept seconds, so retry and
  backoff behaviour is observable in the result.
-/

/-- A parsed JSON value (the fragment this pipeline produces and consumes).
`num m d` denotes the decimal `m / 10^d` written with exactly `d` fractional
digits. -/
inductive Json where
  | str (s : List Char)
  | num (m : Int) (d : Nat)
  | arr (xs : List Json)
  | obj (fs : List (List Char × Json))

instance : Inhabited Json := ⟨Json.num 0 0⟩

/-- Boolean membership in a list of keys, by structural recursion. -/
def bMem : List (List Char) → List Char → Bool
  | [], _ => false
  | x :: t, k => if x = k then true else bMem t k

/-- Key membership of a Python dict (`k in d`). -/
def memKey : List (List Char × Json) → List Char → Bool
  | [], _ => false
  | (k', _) :: t, k => if k' = k then true else memKey t k

/-- Dict lookup (`d[k]` / `d.get(k)`), first binding wins (keys are unique in
a real dict). -/
def lookupKey : List (List Char × Json) → List Char → Option Json
  | [], _ => none
  | (k', v) :: t, k => if k' = k then some v else lookupKey t k

/-- Dict lookup with default (`d.get(k, dflt)`). -/
def getKeyD (fs : List (List Char × Json)) (k : List Char) (dflt : Json) : Json :=
  (lookupKey fs k).getD dflt

/-- Dict assignment (`d[k] = v`): update in place if the key exists (keeping
its position, as CPython dicts do), else append. -/
def setKey : List (List Char × Json) → List Char → Json → List (List Char × Json)
  | [], k, v => [(k, v)]
  | (k', v') :: t, k, v => if k' = k then (k, v) :: t else (k', v') :: setKey t k v

/-- The keys of a dict, in insertion order. -/
def keyList (fs : List (List Char × Json)) : List (List Char) := fs.map Prod.fst

def dedupAux (acc : List (List Char × Json)) : List (List Char × Json) → List (List Char × Json)
  | [] => acc
  | (k, v) :: t => dedupAux (setKey acc k v) t

/-- Collapse duplicate keys, last value winning at the first occurrence's
position: what building a Python dict from a pair sequence does. -/
def dedupFields (fs : List (List Char × Json)) : List (List Char × Json) := dedupAux [] fs

/-- Boolean key-uniqueness of an association list. -/
def bNodup : List (List Char) → Bool
  | [] => true
  | k :: t => !(bMem t k) && bNodup t

mutual
/-- Wellformedness of a value as Python data: every object in it has unique
keys (true of anything built from Python dicts, hence of every dataset the
scripts can hold). -/
def Json.wf : Json → Bool
  | .str _ => true
  | .num _ _ => true
  | .arr xs => wfList xs
  | .obj fs => bNodup (keyList fs) && wfFields fs
def wfList : List Json → Bool
  | [] => true
  | x :: xs => x.wf && wfList xs
def wfFields : List (List Char × Json) → Bool
  | [] => true
  | (_, v) :: fs => v.wf && wfFields fs
end

/-! ## The serializer: `json.dump(x, f, indent=2, ensure_ascii=False)` -/

/-- The decimal digit character of `d < 10`. -/
def digitChar (d : Nat) : Char := Char.ofNat (48 + d)

/-- Decimal digit characters of `n`, most significant first. -/
def natChars (n : Nat) : List Char :=
  if n = 0 then ['0'] else ((Nat.digits 10 n).map digitChar).reverse

/-- The serialized form of the number `m / 10^d`: optional sign, integer part,
and (when `d > 0`) a point followed by exactly `d` fractional digits. -/
def serNum (m : Int) (d : Nat) : List Char :=
  (if m < 0 then ['-'] else []) ++
    (if d = 0 then natChars m.natAbs
     else
       let ip := m.natAbs / 10 ^ d
       let fp := m.natAbs % 10 ^ d
       natChars ip ++ '.' ::
         (List.replicate (d - (natChars fp).length) '0' ++ natChars fp))

/-- The lowercase hex digit character of `d < 16`. -/
def hexChar (d : Nat) : Char :=
  if d < 10 then Char.ofNat (48 + d) else Char.ofNat (87 + d)

/-- A two-character escape: a backslash followed by `x`. -/
def esc (x : Char) : List Char := ['\\', x]

/-- One character as `json.dump` emits it inside a string with
`ensure_ascii=False`: quote, backslash and control characters are escaped,
everything else is passed through raw. -/
def escapeChar (c : Char) : List Char :=
  match c with
  | '"' => esc '"'
  | '\\' => esc '\\'
  | '\n' => esc 'n'
  | '\t' => esc 't'
  | '\r' => esc 'r'
  | '\x08' => esc 'b'
  | '\x0c' => esc 'f'
  | c =>
    if c.toNat < 32 then
      '\\' :: 'u' :: '0' :: '0' :: hexChar (c.toNat / 16) :: [hexChar (c.toNat % 16)]
    else [c]

/-- A string body, escaped. -/
def escapeStr (s : List Char) : List Char := s.flatMap escapeChar

/-- The indentation for nesting level `n` under `indent=2`. -/
def pad (n : Nat) : List Char := List.replicate (2 * n) ' '

mutual
/-- `json.dump(j, f, indent=2, ensure_ascii=False)`, at nesting level `n`. -/
def serJson : Nat → Json → List Char
  | _, .str s => '"' :: (escapeStr s ++ ['"'])
  | _, .num m d => serNum m d
  | _, .arr [] => ['[', ']']
  | n, .arr (x :: xs) =>
    '[' :: '\n' :: (pad (n + 1) ++ (serItems (n + 1) x xs ++ '\n' :: (pad n ++ [']'])))
  | _, .obj [] => ['\x7b', '\x7d']
  | n, .obj ((k, v) :: fs) =>
    '\x7b' :: '\n' :: (pad (n + 1) ++ (serFields (n + 1) k v fs ++ '\n' :: (pad n ++ ['\x7d'])))
termination_by n j => sizeOf j
/-- The comma-newline-indent separated items of a non-empty array, at level `n`. -/
def serItems : Nat → Json → List Json → List Char
  | n, x, [] => serJson n x
  | n, x, y :: ys => serJson n x ++ ',' :: '\n' :: (pad n ++ serItems n y ys)
termination_by n x xs => sizeOf x + sizeOf xs
/-- The members of a non-empty object, at level `n`: `"key": value`, separated
like array items. -/
def serFields : Nat → List Char → Json → List (List Char × Json) → List Char
  | n, k, v, [] => '"' :: (escapeStr k ++ '"' :: ':' :: ' ' :: serJson n v)
  | n, k, v, (k2, v2) :: fs =>
    ('"' :: (escapeStr k ++ '"' :: ':' :: ' ' :: serJson n v)) ++
      ',' :: '\n' :: (pad n ++ serFields n k2 v2 fs)
termination_by n k v fs => sizeOf v + sizeOf fs
end

/-! ## The parser: `json.loads` -/

/-- JSON whitespace. -/
def isWsCh (c : Char) : Bool := c == ' ' || c == '\n' || c == '\t' || c == '\r'

/-- Drop leading JSON whitespace. -/
def skipWs : List Char → List Char
  | c :: cs => if isWsCh c then skipWs cs else c :: cs
  | [] => []

/-- The value of a hex digit character. -/
def hexVal (c : Char) : Option Nat :=
  if c.isDigit then some (c.toNat - 48)
  else if 'a' ≤ c && c ≤ 'f' then some (c.toNat - 87)
  else if 'A' ≤ c && c ≤ 'F' then some (c.toNat - 55)
  else none

/-- A named escape character's value. -/
def unescCh : Char → Option Char
  | '"' => some '"'
  | '\\' => some '\\'
  | '/' => some '/'
  | 'b' => some '\x08'
  | 'f' => some '\x0c'
  | 'n' => some '\n'
  | 'r' => some '\r'
  | 't' => some '\t'
  | _ => none

/-- Parse a string body after the opening quote, undoing escapes, up to the
closing quote. -/
def parseStrBody : List Char → Option (List Char × List Char)
  | [] => none
  | '"' :: rest => some ([], rest)
  | '\\' :: 'u' :: h1 :: h2 :: h3 :: h4 :: rest =>
    (match hexVal h1, hexVal h2, hexVal h3, hexVal h4 with
     | some a, some b, some c, some d =>
       (parseStrBody rest).map fun p => (Char.ofNat (((a * 16 + b) * 16 + c) * 16 + d) :: p.1, p.2)
     | _, _, _, _ => none)
  | '\\' :: e :: rest =>
    (match unescCh e with
     | some c => (parseStrBody rest).map fun p => (c :: p.1, p.2)
     | none => none)
  | c :: rest => (parseStrBody rest).map fun p => (c :: p.1, p.2)

/-- Take the longest leading run of decimal digits. -/
def takeDigits : List Char → List Char × List Char
  | c :: cs =>
    if c.isDigit then
      let (ds, r) := takeDigits cs
      (c :: ds, r)
    else ([], c :: cs)
  | [] => ([], [])

/-- The number a digit run denotes. -/
def digitsVal (ds : List Char) : Nat :=
  Nat.ofDigits 10 ((ds.map fun c => c.toNat - 48).reverse)

/-- The signed value of a parsed magnitude. -/
def signVal (neg : Bool) (a : Nat) : Int := if neg then -(a : Int) else (a : Int)

/-- Parse digits and an optional fractional part into the decimal model, the
sign having been consumed already. -/
def parseNumCore (neg : Bool) (cs1 : List Char) : Option (Json × List Char) :=
  let (ip, cs2) := takeDigits cs1
  if ip.isEmpty then none
  else
    match cs2 with
    | [] => some (.num (signVal neg (digitsVal ip)) 0, [])
    | c :: r =>
      if c = '.' then
        let (fp, cs3) := takeDigits r
        if fp.isEmpty then none
        else
          some (.num (signVal neg (digitsVal ip * 10 ^ fp.length + digitsVal fp)) fp.length, cs3)
      else some (.num (signVal neg (digitsVal ip)) 0, c :: r)

/-- Parse a JSON number literal (optional sign, digits, optional fractional
part). -/
def parseNum : List Char → Option (Json × List Char)
  | [] => none
  | c :: r => if c = '-' then parseNumCore true r else parseNumCore false (c :: r)

mutual
/-- Parse one JSON value; `fuel` bounds the recursion (callers pass more fuel
than the input's length, so it never runs out on real input). -/
def parseVal : Nat → List Char → Option (Json × List Char)
  | 0, _ => none
  | _ + 1, [] => none
  | f + 1, c :: rest =>
    if c = '"' then (parseStrBody rest).map fun p => (.str p.1, p.2)
    else if c = '[' then
      match skipWs rest with
      | [] => none
      | c1 :: r1 =>
        if c1 = ']' then some (.arr [], r1)
        else (parseItems f (c1 :: r1)).map fun p => (.arr p.1, p.2)
    else if c = '\x7b' then
      match skipWs rest with
      | [] => none
      | c1 :: r1 =>
        if c1 = '\x7d' then some (.obj [], r1)
        else (parseFields f (c1 :: r1)).map fun p => (.obj (dedupFields p.1), p.2)
    else if c = '-' || c.isDigit then parseNum (c :: rest)
    else none
/-- Parse one or more comma-separated array items up to the closing bracket. -/
def parseItems : Nat → List Char → Option (List Json × List Char)
  | 0, _ => none
  | f + 1, cs =>
    match parseVal f cs with
    | none => none
    | some (j, r) =>
      match skipWs r with
      | [] => none
      | c :: r2 =>
        if c = ',' then (parseItems f (skipWs r2)).map fun p => (j :: p.1, p.2)
        else if c = ']' then some ([j], r2)
        else none
/-- Parse one or more comma-separated object members up to the closing brace. -/
def parseFields : Nat → List Char → Option (List (List Char × Json) × List Char)
  | 0, _ => none
  | f + 1, cs =>
    match cs with
    | [] => none
    | c :: r0 =>
      if c = '"' then
        match parseStrBody r0 with
        | none => none
        | some (k, r1) =>
          match skipWs r1 with
          | [] => none
          | c1 :: r2 =>
            if c1 = ':' then
              match parseVal f (skipWs r2) with
              | none => none
              | some (v, r3) =>
                match skipWs r3 with
                | [] => none
                | c2 :: r4 =>
                  if c2 = ',' then (parseFields f (skipWs r4)).map fun p => ((k, v) :: p.1, p.2)
                  else if c2 = '\x7d' then some ([(k, v)], r4)
                  else none
            else none
      else none
end

/-- `json.loads`: parse a complete document, allowing surrounding whitespace
and rejecting trailing characters. -/
def jsonLoads (cs : List Char) : Option Json :=
  match parseVal (cs.length + 1) (skipWs cs) with
  | some (j, r) => if (skipWs r).isEmpty then some j else none
  | none => none

/-! ## String search (`str.find`) and the embedded persistence format -/

/-- `begins pat cs`: `cs` starts with `pat`. -/
def begins : List Char → List Char → Bool
  | [], _ => true
  | _ :: _, [] => false
  | p :: ps, c :: cs => p = c && begins ps cs

/-- The least index at which `pat` occurs in the list, if any
(`str.find` without a start argument). -/
def findSub (pat : List Char) : List Char → Option Nat
  | [] => if begins pat [] then some 0 else none
  | c :: t => if begins pat (c :: t) then some 0 else (findSub pat t).map (· + 1)

/-- `content.find(pat, start)`: the least occurrence index that is `≥ start`. -/
def findFrom (pat cs : List Char) (start : Nat) : Option Nat :=
  (findSub pat (cs.drop start)).map (· + start)

/-- Python slicing `cs[a:b]`. -/
def sliceStr (cs : List Char) (a b : Nat) : List Char := (cs.take b).drop a

/-- The literal before the first embedded value. -/
def dataLabel : List Char := "const mbtaBusData = ".data

/-- The literal before the second embedded value. -/
def shapesLabel : List Char := "const busRouteShapes = ".data

/-- The pattern locating the end of the first embedded value. -/
def delimMid : List Char := ";\n\nconst busRouteShapes".data

/-- The terminator written after each embedded value, and the pattern locating
the end of the second one. -/
def delimEnd : List Char := ";\n\n".data

/-- The embedded `.js` file the scripts write: both maps dumped as JSON after
their assignment labels, each terminated by `;` and a blank line. -/
def writeEmbedded (a b : List (List Char × Json)) : List Char :=
  dataLabel ++ serJson 0 (.obj a) ++ delimEnd ++
    shapesLabel ++ serJson 0 (.obj b) ++ delimEnd

/-- The extraction phase of `retry_failed_routes`: locate both values by their
labels and delimiters, slicing the text between them. -/
def extractEmbedded (cs : List Char) : Option (List Char × List Char) :=
  match findFrom dataLabel cs 0 with
  | none => none
  | some i0 =>
    let s1 := i0 + dataLabel.length
    match findFrom delimMid cs s1 with
    | none => none
    | some e1 =>
      match findFrom shapesLabel cs e1 with
      | none => none
      | some i2 =>
        let s2 := i2 + shapesLabel.length
        match findFrom delimEnd cs s2 with
        | none => none
        | some e2 => some (sliceStr cs s1 e1, sliceStr cs s2 e2)

/-- Read the embedded file back: extract both slices and parse each as JSON. -/
def readEmbedded (cs : List Char) : Option (Json × Json) :=
  match extractEmbedded cs with
  | none => none
  | some (x, y) =>
    match jsonLoads x, jsonLoads y with
    | some a, some b => some (a, b)
    | _, _ => none

/-- The canonical JSON file `generate_bus_data` writes: one document with the
two maps under fixed keys. -/
def writeCanonical (a b : List (List Char × Json)) : List Char :=
  serJson 0 (.obj [("mbtaBusData".data, .obj a), ("busRouteShapes".data, .obj b)])

/-- Decode the canonical document back into its two maps. -/
def readCanonical (cs : List Char) : Option (Json × Json) :=
  match jsonLoads cs with
  | some (.obj fs) =>
    match lookupKey fs "mbtaBusData".data, lookupKey fs "busRouteShapes".data with
    | some x, some y => some (x, y)
    | _, _ => none
  | _ => none

/-! ## Digit and number lemmas -/

theorem digitChar_spec : ∀ d : Nat, d < 10 →
    (digitChar d).toNat = 48 + d ∧ (digitChar d).isDigit = true := by decide

theorem natChars_ne_nil (n : Nat) : natChars n ≠ [] := by
  unfold natChars
  split
  · simp
  · rename_i h
    simp [List.reverse_eq_nil_iff, List.map_eq_nil_iff, Nat.digits_ne_nil_iff_ne_zero, h]

theorem natChars_digits (n : Nat) : ∀ c ∈ natChars n, c.isDigit = true := by
  unfold natChars
  split
  · intro c hc
    simp at hc
    subst hc
    decide
  · intro c hc
    simp [List.mem_reverse, List.mem_map] at hc
    obtain ⟨d, hd, rfl⟩ := hc
    exact (digitChar_spec d (Nat.digits_lt_base (by norm_num) hd)).2

theorem digitsVal_natChars (n : Nat) : digitsVal (natChars n) = n := by
  unfold digitsVal natChars
  split
  · rename_i h
    subst h
    simp [Nat.ofDigits_singleton]
  · rename_i h
    rw [List.map_reverse, List.reverse_reverse, List.map_map]
    have : (Nat.digits 10 n).map ((fun c => c.toNat - 48) ∘ digitChar)
        = (Nat.digits 10 n).map id := by
      apply List.map_congr_left
      intro d hd
      have := (digitChar_spec d (Nat.digits_lt_base (by norm_num) hd)).1
      simp [Function.comp, this]
    rw [this, List.map_id]
    exact Nat.ofDigits_digits 10 n

theorem natChars_len_le (n d : Nat) (h : n < 10 ^ d) (hd : 0 < d) :
    (natChars n).length ≤ d := by
  unfold natChars
  split
  · simpa using hd
  · rename_i hn
    rw [List.length_reverse, List.length_map,
      Nat.digits_len 10 n (by norm_num) hn]
    have := Nat.log_lt_of_lt_pow hn h
    omega

theorem natChars_head (n : Nat) : ∃ c t, natChars n = c :: t ∧ c.isDigit = true := by
  match h : natChars n with
  | [] => exact absurd h (natChars_ne_nil n)
  | c :: t => exact ⟨c, t, rfl, natChars_digits n c (h ▸ List.mem_cons_self ..)⟩

/-- Negative facts about digit characters, gathered once: a digit is none of
the structural characters of the JSON grammar. -/
theorem isDigit_ne (c : Char) (h : c.isDigit = true) :
    c ≠ '-' ∧ c ≠ '.' ∧ c ≠ '"' ∧ c ≠ '[' ∧ c ≠ '\x7b' ∧ isWsCh c = false ∧
      c ≠ ']' ∧ c ≠ '\x7d' ∧ c ≠ ',' ∧ c ≠ ':' ∧ c ≠ '\n' := by
  have hlo : 48 ≤ c.toNat := by
    simp [Char.isDigit, decide_eq_true_eq] at h
    exact h.1
  have hhi : c.toNat ≤ 57 := by
    simp [Char.isDigit, decide_eq_true_eq] at h
    exact h.2
  refine ⟨?_, ?_, ?_, ?_, ?_, ?_, ?_, ?_, ?_, ?_, ?_⟩
  all_goals first
    | (intro rfl; simp_all)
    | (simp only [isWsCh, Bool.or_eq_false_iff, beq_eq_false_iff_ne]
       refine ⟨⟨⟨?_, ?_⟩, ?_⟩, ?_⟩ <;> (intro rfl; simp_all))

/-- The head of the list, if any, is not a digit. -/
def headNotDigit : List Char → Bool
  | [] => true
  | c :: _ => !c.isDigit

/-- The remainder cannot extend a number literal: empty, or headed by a
character that is neither a digit nor a point. -/
def numStop : List Char → Bool
  | [] => true
  | c :: _ => !(c.isDigit || c == '.')

theorem numStop_headNotDigit (cs : List Char) (h : numStop cs = true) :
    headNotDigit cs = true := by
  cases cs with
  | nil => rfl
  | cons c t =>
    simp [numStop] at h
    simp [headNotDigit, h.1]

theorem takeDigits_stop (cs : List Char) (h : headNotDigit cs = true) :
    takeDigits cs = ([], cs) := by
  cases cs with
  | nil => rfl
  | cons c t =>
    simp [headNotDigit] at h
    simp [takeDigits, h]

theorem takeDigits_run (ds : List Char) (hds : ∀ c ∈ ds, c.isDigit = true)
    (rest : List Char) (hr : headNotDigit rest = true) :
    takeDigits (ds ++ rest) = (ds, rest) := by
  induction ds with
  | nil => simpa using takeDigits_stop rest hr
  | cons c t ih =>
    have hc : c.isDigit = true := hds c (by simp)
    have ht := ih fun x hx => hds x (by simp [hx])
    simp [takeDigits, hc, ht]

theorem ofDigits_replicate_zero (k : Nat) : Nat.ofDigits 10 (List.replicate k 0) = 0 := by
  induction k with
  | zero => simp
  | succ k ih => simp [List.replicate_succ, Nat.ofDigits_cons, ih]

theorem digitsVal_pad (k : Nat) (ds : List Char) :
    digitsVal (List.replicate k '0' ++ ds) = digitsVal ds := by
  unfold digitsVal
  rw [List.map_append, List.reverse_append, List.map_replicate]
  have h0 : ('0' : Char).toNat - 48 = 0 := by decide
  rw [h0, List.reverse_replicate, Nat.ofDigits_append, ofDigits_replicate_zero]
  simp

theorem isEmpty_false_of_ne_nil {l : List Char} (h : l ≠ []) : l.isEmpty = true ↔ False := by
  simp [List.isEmpty_iff, h]

theorem parseNumCore_int (neg : Bool) (a : Nat) (rest : List Char)
    (hrest : numStop rest = true) :
    parseNumCore neg (natChars a ++ rest) = some (.num (signVal neg a) 0, rest) := by
  unfold parseNumCore
  rw [takeDigits_run (natChars a) (natChars_digits a) rest
    (numStop_headNotDigit rest hrest)]
  dsimp only
  rw [if_neg (by simp [isEmpty_false_of_ne_nil (natChars_ne_nil a)])]
  cases rest with
  | nil => simp [digitsVal_natChars]
  | cons c t =>
    have hc : ¬ c = '.' := by
      simp [numStop] at hrest
      exact hrest.2
    simp [hc, digitsVal_natChars]

theorem parseNumCore_frac (neg : Bool) (a d : Nat) (hd : d ≠ 0) (rest : List Char)
    (hrest : numStop rest = true) :
    parseNumCore neg
      (natChars (a / 10 ^ d) ++ '.' ::
        (List.replicate (d - (natChars (a % 10 ^ d)).length) '0'
          ++ natChars (a % 10 ^ d)) ++ rest)
      = some (.num (signVal neg a) d, rest) := by
  have hfp : a % 10 ^ d < 10 ^ d := Nat.mod_lt _ (by positivity)
  have hlen : (natChars (a % 10 ^ d)).length ≤ d :=
    natChars_len_le _ _ hfp (by omega)
  have hpaddig : ∀ c ∈ List.replicate (d - (natChars (a % 10 ^ d)).length) '0'
      ++ natChars (a % 10 ^ d), c.isDigit = true := by
    intro c hc
    rw [List.mem_append] at hc
    cases hc with
    | inl h => rw [List.eq_of_mem_replicate h]; decide
    | inr h => exact natChars_digits _ c h
  have hpadne : List.replicate (d - (natChars (a % 10 ^ d)).length) '0'
      ++ natChars (a % 10 ^ d) ≠ [] := by
    intro hc
    exact absurd (List.append_eq_nil.mp hc).2 (natChars_ne_nil _)
  have hshape : natChars (a / 10 ^ d) ++ '.' ::
      (List.replicate (d - (natChars (a % 10 ^ d)).length) '0'
        ++ natChars (a % 10 ^ d)) ++ rest
      = natChars (a / 10 ^ d) ++ '.' ::
        ((List.replicate (d - (natChars (a % 10 ^ d)).length) '0'
          ++ natChars (a % 10 ^ d)) ++ rest) := by
    simp [List.append_assoc]
  rw [hshape]
  unfold parseNumCore
  rw [takeDigits_run (natChars (a / 10 ^ d)) (natChars_digits _) _
    (by simp [headNotDigit])]
  dsimp only
  rw [if_neg (by simp [isEmpty_false_of_ne_nil (natChars_ne_nil _)])]
  rw [if_pos rfl]
  rw [takeDigits_run _ hpaddig rest (numStop_headNotDigit rest hrest)]
  dsimp only
  rw [if_neg (by simp [isEmpty_false_of_ne_nil hpadne])]
  have hflen : (List.replicate (d - (natChars (a % 10 ^ d)).length) '0'
      ++ natChars (a % 10 ^ d)).length = d := by
    simp [List.length_append, List.length_replicate]
    omega
  rw [hflen, digitsVal_pad, digitsVal_natChars, digitsVal_natChars, Nat.div_add_mod']

theorem signVal_natAbs_neg (m : Int) (hm : m < 0) : signVal true m.natAbs = m := by
  have h1 : ((m.natAbs : Int)) = -m := Int.ofNat_natAbs_of_nonpos (by omega)
  simp [signVal, h1]

theorem signVal_natAbs_nonneg (m : Int) (hm : ¬ m < 0) : signVal false m.natAbs = m := by
  have h1 : ((m.natAbs : Int)) = m := Int.natAbs_of_nonneg (by omega)
  simp [signVal, h1]

theorem parseNum_serNum (m : Int) (d : Nat) (rest : List Char)
    (hrest : numStop rest = true) :
    parseNum (serNum m d ++ rest) = some (.num m d, rest) := by
  have hcore : parseNumCore (decide (m < 0))
      ((if d = 0 then natChars m.natAbs
        else natChars (m.natAbs / 10 ^ d) ++ '.' ::
          (List.replicate (d - (natChars (m.natAbs % 10 ^ d)).length) '0'
            ++ natChars (m.natAbs % 10 ^ d))) ++ rest)
      = some (.num (signVal (decide (m < 0)) m.natAbs) d, rest) := by
    by_cases hd : d = 0
    · subst hd
      rw [if_pos rfl]
      exact parseNumCore_int _ m.natAbs rest hrest
    · rw [if_neg hd]
      exact parseNumCore_frac _ m.natAbs d hd rest hrest
  by_cases hm : m < 0
  · have hser : serNum m d ++ rest = '-' ::
        ((if d = 0 then natChars m.natAbs
          else natChars (m.natAbs / 10 ^ d) ++ '.' ::
            (List.replicate (d - (natChars (m.natAbs % 10 ^ d)).length) '0'
              ++ natChars (m.natAbs % 10 ^ d))) ++ rest) := by
      simp [serNum, hm, List.append_assoc]
    rw [hser, parseNum, if_pos rfl]
    rw [decide_eq_true hm] at hcore
    rw [hcore, signVal_natAbs_neg m hm]
  · have hser : serNum m d ++ rest =
        (if d = 0 then natChars m.natAbs
         else natChars (m.natAbs / 10 ^ d) ++ '.' ::
           (List.replicate (d - (natChars (m.natAbs % 10 ^ d)).length) '0'
             ++ natChars (m.natAbs % 10 ^ d))) ++ rest := by
      simp [serNum, hm]
    have hhead : ∃ c t, (if d = 0 then natChars m.natAbs
        else natChars (m.natAbs / 10 ^ d) ++ '.' ::
          (List.replicate (d - (natChars (m.natAbs % 10 ^ d)).length) '0'
            ++ natChars (m.natAbs % 10 ^ d))) = c :: t ∧ c.isDigit = true := by
      by_cases hd : d = 0
      · simpa [hd] using natChars_head m.natAbs
      · obtain ⟨c, t, hct, hc⟩ := natChars_head (m.natAbs / 10 ^ d)
        exact ⟨c, t ++ '.' ::
          (List.replicate (d - (natChars (m.natAbs % 10 ^ d)).length) '0'
            ++ natChars (m.natAbs % 10 ^ d)), by simp [hd, hct], hc⟩
    obtain ⟨c, t, hct, hc⟩ := hhead
    rw [decide_eq_false hm] at hcore
    rw [hct] at hcore
    rw [hser, hct, List.cons_append, parseNum, if_neg (isDigit_ne c hc).1,
      ← List.cons_append, hcore, signVal_natAbs_nonneg m hm]

/-! ## String escaping round-trip and whitespace lemmas -/

theorem hexVal_hexChar : ∀ x : Nat, x < 16 → hexVal (hexChar x) = some x := by decide

theorem parseStrBody_escape (c : Char) (tail : List Char) :
    parseStrBody (escapeChar c ++ tail)
      = (parseStrBody tail).map fun p => (c :: p.1, p.2) := by
  unfold escapeChar
  split
  · simp [esc, parseStrBody, unescCh]
  · simp [esc, parseStrBody, unescCh]
  · simp [esc, parseStrBody, unescCh]
  · simp [esc, parseStrBody, unescCh]
  · simp [esc, parseStrBody, unescCh]
  · simp [esc, parseStrBody, unescCh]
  · simp [esc, parseStrBody, unescCh]
  · rename_i h1 h2 h3 h4 h5 h6 h7
    by_cases hlt : c.toNat < 32
    · have h16a : c.toNat / 16 < 16 := by omega
      have h16b : c.toNat % 16 < 16 := by omega
      have hv0 : hexVal '0' = some 0 := by decide
      have harith : ((0 * 16 + 0) * 16 + c.toNat / 16) * 16 + c.toNat % 16 = c.toNat := by
        omega
      have harith2 : c.toNat / 16 * 16 + c.toNat % 16 = c.toNat := Nat.div_add_mod' _ 16
      simp [if_pos hlt, List.cons_append, parseStrBody, hv0,
        hexVal_hexChar _ h16a, hexVal_hexChar _ h16b, harith, harith2, Char.ofNat_toNat]
    · simp only [if_neg hlt, List.cons_append, List.nil_append]
      rw [parseStrBody.eq_def]
      have hq : c ≠ '"' := h1
      have hb : c ≠ '\\' := h2
      simp [hq, hb]

theorem parseStrBody_run (s : List Char) : ∀ tail : List Char,
    parseStrBody (escapeStr s ++ '"' :: tail) = some (s, tail) := by
  induction s with
  | nil => intro tail; simp [escapeStr, parseStrBody]
  | cons c cs ih =>
    intro tail
    rw [escapeStr, List.flatMap_cons, List.append_assoc, ← escapeStr,
      parseStrBody_escape, ih]
    rfl

theorem skipWs_cons_not {c : Char} (r : List Char) (h : isWsCh c = false) :
    skipWs (c :: r) = c :: r := by
  simp [skipWs, h]

theorem skipWs_spaces (n : Nat) (rest : List Char) :
    skipWs (List.replicate n ' ' ++ rest) = skipWs rest := by
  induction n with
  | zero => simp
  | succ k ih => simp [List.replicate_succ, skipWs, isWsCh, ih]

theorem skipWs_pad (n : Nat) (rest : List Char) :
    skipWs (pad n ++ rest) = skipWs rest := skipWs_spaces (2 * n) rest

theorem skipWs_nl (r : List Char) : skipWs ('\n' :: r) = skipWs r := by
  simp [skipWs, isWsCh]

theorem ne_nl_of_not_ws {c : Char} (h : isWsCh c = false) : c ≠ '\n' := by
  intro hc
  rw [hc] at h
  exact absurd h (by decide)

/-! ## Absence of blank lines in serializer output

The delimiter `";\n\n"` can be found reliably because `json.dump` output with
`indent=2` never contains two consecutive newlines: newlines inside strings
are escaped, and every structural newline is followed by indentation or a
closing bracket. `nlnlFree` captures this. -/

/-- No two consecutive newline characters. -/
def nlnlFree : List Char → Bool
  | [] => true
  | [_] => true
  | c :: d :: t => !(c == '\n' && d == '\n') && nlnlFree (d :: t)

theorem mem_of_head? {l : List Char} {c : Char} (h : l.head? = some c) : c ∈ l := by
  cases l with
  | nil => simp at h
  | cons x t =>
    simp at h
    simp [h]

theorem mem_of_getLast? {l : List Char} {c : Char} (h : l.getLast? = some c) : c ∈ l := by
  induction l with
  | nil => simp at h
  | cons x t ih =>
    cases t with
    | nil =>
      simp [List.getLast?] at h
      simp [h]
    | cons y t2 =>
      rw [List.getLast?_cons_cons] at h
      exact List.mem_cons_of_mem x (ih h)

theorem nlnlFree_of_no_nl : ∀ l : List Char, '\n' ∉ l → nlnlFree l = true
  | [], _ => rfl
  | [_], _ => rfl
  | c :: d :: t, h => by
    have hc : c ≠ '\n' := fun hc => h (by simp [hc])
    have ht : '\n' ∉ d :: t := fun hm => h (List.mem_cons_of_mem c hm)
    have := nlnlFree_of_no_nl (d :: t) ht
    simp [nlnlFree, this, hc]

theorem nlnlFree_append : ∀ a b : List Char, nlnlFree a = true → nlnlFree b = true →
    (a.getLast? ≠ some '\n' ∨ b.head? ≠ some '\n') → nlnlFree (a ++ b) = true
  | [], b, _, hb, _ => hb
  | [x], b, _, hb, hj => by
    cases b with
    | nil => rfl
    | cons y t =>
      have hxy : ¬(x = '\n' ∧ y = '\n') := by
        rintro ⟨rfl, rfl⟩
        rcases hj with h | h <;> simp [List.getLast?] at h
      simp only [List.cons_append, List.nil_append, nlnlFree, hb, Bool.and_true]
      simp only [Bool.not_eq_true', Bool.and_eq_false_iff, beq_eq_false_iff_ne]
      by_cases hx : x = '\n'
      · right
        intro hy
        exact hxy ⟨hx, hy⟩
      · left
        exact hx
  | x :: y :: t, b, ha, hb, hj => by
    have h1 : nlnlFree (y :: t) = true := by
      simp [nlnlFree] at ha
      exact ha.2
    have h2 : ¬(x = '\n' ∧ y = '\n') := by
      simp [nlnlFree] at ha
      rintro ⟨rfl, rfl⟩
      exact absurd ha.1 (by simp)
    have hj2 : (y :: t).getLast? ≠ some '\n' ∨ b.head? ≠ some '\n' := by
      rwa [List.getLast?_cons_cons] at hj
    have := nlnlFree_append (y :: t) b h1 hb hj2
    simp only [List.cons_append] at this ⊢
    simp only [nlnlFree, this, Bool.and_true]
    simp only [Bool.not_eq_true', Bool.and_eq_false_iff, beq_eq_false_iff_ne]
    by_cases hx : x = '\n'
    · right
      intro hy
      exact h2 ⟨hx, hy⟩
    · left
      exact hx

theorem nlnlFree_append_no_nl_right (a b : List Char) (ha : nlnlFree a = true)
    (hb : '\n' ∉ b) : nlnlFree (a ++ b) = true := by
  refine nlnlFree_append a b ha (nlnlFree_of_no_nl b hb) (Or.inr ?_)
  intro h
  exact hb (mem_of_head? h)

theorem nlnlFree_append_no_nl_left (a b : List Char) (ha : '\n' ∉ a)
    (hb : nlnlFree b = true) : nlnlFree (a ++ b) = true := by
  refine nlnlFree_append a b (nlnlFree_of_no_nl a ha) hb (Or.inl ?_)
  intro h
  exact ha (mem_of_getLast? h)

theorem nlnlFree_pair : ∀ (l : List Char) (p : Nat), nlnlFree l = true →
    l[p]? = some '\n' → l[p + 1]? = some '\n' → False
  | [], p, _, h1, _ => by simp at h1
  | [x], p, _, _, h2 => by
    rw [List.getElem?_eq_none (by simp)] at h2
    exact Option.noConfusion h2
  | x :: y :: t, 0, hf, h1, h2 => by
    simp at h1 h2
    simp [nlnlFree, h1, h2] at hf
  | x :: y :: t, p + 1, hf, h1, h2 => by
    have hf2 : nlnlFree (y :: t) = true := by
      simp [nlnlFree] at hf
      exact hf.2
    have h1' : (y :: t)[p]? = some '\n' := by simpa using h1
    have h2' : (y :: t)[p + 1]? = some '\n' := by simpa using h2
    exact nlnlFree_pair (y :: t) p hf2 h1' h2'

/-- In `A ++ B` with `A` free of blank lines and not ending in a newline, a
pair of adjacent newlines can only start at or beyond `A`'s end. -/
theorem pair_in_left (A B : List Char) (p : Nat) (hA : nlnlFree A = true)
    (hlast : A.getLast? ≠ some '\n')
    (h1 : (A ++ B)[p]? = some '\n') (h2 : (A ++ B)[p + 1]? = some '\n') :
    A.length ≤ p := by
  by_contra hp
  push_neg at hp
  have h1A : A[p]? = some '\n' := by
    rw [List.getElem?_append_left hp] at h1
    exact h1
  by_cases hp1 : p + 1 < A.length
  · have h2A : A[p + 1]? = some '\n' := by
      rw [List.getElem?_append_left hp1] at h2
      exact h2
    exact nlnlFree_pair A p hA h1A h2A
  · have hpl : p + 1 = A.length := by omega
    apply hlast
    rw [List.getLast?_eq_getElem?, ← hpl]
    simpa using h1A

/-! ## Exact positions for `str.find` -/

theorem begins_self_append : ∀ p t : List Char, begins p (p ++ t) = true
  | [], _ => rfl
  | c :: ps, t => by simp [begins, begins_self_append ps t]

theorem begins_getElem : ∀ p cs : List Char, begins p cs = true →
    ∀ i, i < p.length → cs[i]? = p[i]?
  | [], _, _, i, hi => by simp at hi
  | c :: ps, [], h, _, _ => by simp [begins] at h
  | c :: ps, x :: t, h, i, hi => by
    simp only [begins, Bool.and_eq_true, decide_eq_true_eq] at h
    cases i with
    | zero => simp [h.1]
    | succ k =>
      have := begins_getElem ps t h.2 k (by simpa using hi)
      simpa using this

theorem findSub_le (pat : List Char) : ∀ (cs : List Char) (i : Nat),
    begins pat (cs.drop i) = true → ∃ j, findSub pat cs = some j ∧ j ≤ i
  | cs, 0, h => by
    simp only [List.drop_zero] at h
    cases cs with
    | nil => exact ⟨0, by simp [findSub, h], le_refl 0⟩
    | cons c t => exact ⟨0, by simp [findSub, h], le_refl 0⟩
  | [], i + 1, h => by
    simp only [List.drop_nil] at h
    exact ⟨0, by simp [findSub, h], by omega⟩
  | c :: t, i + 1, h => by
    simp only [List.drop_succ_cons] at h
    by_cases hb : begins pat (c :: t) = true
    · exact ⟨0, by simp [findSub, hb], by omega⟩
    · obtain ⟨j, hj, hji⟩ := findSub_le pat t i h
      refine ⟨j + 1, ?_, by omega⟩
      simp [findSub, hb, hj]

theorem findSub_spec (pat : List Char) : ∀ (cs : List Char) (j : Nat),
    findSub pat cs = some j →
    begins pat (cs.drop j) = true ∧ ∀ k, k < j → begins pat (cs.drop k) = false
  | [], j, h => by
    rw [findSub] at h
    split at h
    · rename_i hb
      cases h
      exact ⟨hb, fun k hk => absurd hk (by omega)⟩
    · exact Option.noConfusion h
  | c :: t, j, h => by
    rw [findSub] at h
    split at h
    · rename_i hb
      cases h
      exact ⟨hb, fun k hk => absurd hk (by omega)⟩
    · rename_i hb
      cases hsub : findSub pat t with
      | none => rw [hsub] at h; exact Option.noConfusion h
      | some j0 =>
        rw [hsub] at h
        simp only [Option.map_some'] at h
        obtain ⟨hbeg, hmin⟩ := findSub_spec pat t j0 hsub
        cases h
        refine ⟨by simpa using hbeg, ?_⟩
        intro k hk
        cases k with
        | zero =>
          have hfalse : begins pat (c :: t) = false := by
            cases hbv : begins pat (c :: t) with
            | false => rfl
            | true => exact absurd hbv hb
          simpa using hfalse
        | succ k2 =>
          simpa using hmin k2 (by omega)

theorem findSub_exact (pat S : List Char) (T : Nat)
    (hocc : begins pat (S.drop T) = true)
    (hnone : ∀ k, k < T → begins pat (S.drop k) = false) :
    findSub pat S = some T := by
  obtain ⟨j, hj, hji⟩ := findSub_le pat S T hocc
  obtain ⟨hb, _⟩ := findSub_spec pat S j hj
  rcases Nat.lt_or_ge j T with hlt | hge
  · rw [hnone j hlt] at hb
    exact Bool.noConfusion hb
  · have : j = T := by omega
    rw [← this]
    exact hj

theorem findFrom_exact (pat cs : List Char) (s T : Nat) (hsT : s ≤ T)
    (hocc : begins pat (cs.drop T) = true)
    (hnone : ∀ k, s ≤ k → k < T → begins pat (cs.drop k) = false) :
    findFrom pat cs s = some T := by
  unfold findFrom
  have hexact : findSub pat (cs.drop s) = some (T - s) := by
    apply findSub_exact
    · rw [List.drop_drop]
      have : s + (T - s) = T := by omega
      rw [this]
      exact hocc
    · intro k hk
      rw [List.drop_drop]
      exact hnone (s + k) (by omega) (by omega)
  rw [hexact]
  rw [Option.map_some']
  congr 1
  omega

theorem lt_length_of_getElem? {l : List Char} {i : Nat} {c : Char}
    (h : l[i]? = some c) : i < l.length := by
  by_contra hcon
  push_neg at hcon
  rw [List.getElem?_eq_none hcon] at h
  exact Option.noConfusion h

theorem findFrom_zero (pat cs : List Char) (h : begins pat cs = true) :
    findFrom pat cs 0 = some 0 := by
  apply findFrom_exact pat cs 0 0 (le_refl 0)
  · exact (List.drop_zero cs).symm ▸ h
  · intro k h1 h2
    omega

/-- The first `";\n\n"`-style pattern at or after position `s` in
`(text up to s) ++ J ++ ';' :: '\n' :: '\n' :: R` is exactly at the end of
`J`, provided `J` has no blank line and does not end in a newline. -/
theorem find_delim (cs : List Char) (s : Nat) (J R pat : List Char)
    (hdrop : cs.drop s = J ++ ';' :: '\n' :: '\n' :: R)
    (hJfree : nlnlFree J = true) (hJlast : J.getLast? ≠ some '\n')
    (hpat1 : pat[1]? = some '\n') (hpat2 : pat[2]? = some '\n')
    (hbeg : begins pat (';' :: '\n' :: '\n' :: R) = true) :
    findFrom pat cs s = some (s + J.length) := by
  unfold findFrom
  have hA : nlnlFree (J ++ [';']) = true :=
    nlnlFree_append_no_nl_right J [';'] hJfree (by simp)
  have hAlast : (J ++ [';']).getLast? ≠ some '\n' := by
    rw [List.getLast?_concat]
    simp
  have hshape : J ++ ';' :: '\n' :: '\n' :: R = (J ++ [';']) ++ '\n' :: '\n' :: R := by
    simp
  have hexact : findSub pat (cs.drop s) = some J.length := by
    rw [hdrop]
    apply findSub_exact
    · have : (J ++ ';' :: '\n' :: '\n' :: R).drop J.length = ';' :: '\n' :: '\n' :: R :=
        List.drop_left J _
      rw [this]
      exact hbeg
    · intro k hk
      by_contra hcon
      rw [Bool.not_eq_false] at hcon
      have h1 : (J ++ ';' :: '\n' :: '\n' :: R)[k + 1]? = some '\n' := by
        have hg := begins_getElem pat _ hcon 1 (lt_length_of_getElem? hpat1)
        rw [List.getElem?_drop] at hg
        rw [hg, hpat1]
      have h2 : (J ++ ';' :: '\n' :: '\n' :: R)[k + 2]? = some '\n' := by
        have hg := begins_getElem pat _ hcon 2 (lt_length_of_getElem? hpat2)
        rw [List.getElem?_drop] at hg
        rw [show k + 2 = k + 1 + 1 from rfl, hg, hpat2]
      rw [hshape] at h1 h2
      have := pair_in_left (J ++ [';']) ('\n' :: '\n' :: R) (k + 1) hA hAlast h1 h2
      simp only [List.length_append, List.length_cons, List.length_nil] at this
      omega
  rw [hexact]
  rw [Option.map_some']
  congr 1
  omega

/-- The label `const busRouteShapes = ` is found exactly 3 characters past a
position whose suffix starts `";\n\n"` followed by the label. -/
theorem find_label (cs : List Char) (s : Nat) (R : List Char)
    (hdrop : cs.drop s = ';' :: '\n' :: '\n' :: R)
    (hbeg : begins shapesLabel R = true) :
    findFrom shapesLabel cs s = some (s + 3) := by
  unfold findFrom
  have hexact : findSub shapesLabel (cs.drop s) = some 3 := by
    rw [hdrop]
    apply findSub_exact
    · exact hbeg
    · intro k hk
      by_contra hcon
      rw [Bool.not_eq_false] at hcon
      have h0 : (';' :: '\n' :: '\n' :: R)[k]? = some 'c' := by
        have hg := begins_getElem shapesLabel _ hcon 0 (by decide)
        rw [List.getElem?_drop] at hg
        rw [Nat.add_zero] at hg
        rw [hg]
        rfl
      interval_cases k <;> simp at h0
  rw [hexact]
  rw [Option.map_some']
  congr 1
  omega

theorem sliceStr_exact (C mid R : List Char) :
    sliceStr (C ++ mid ++ R) C.length (C.length + mid.length) = mid := by
  unfold sliceStr
  rw [List.append_assoc, List.take_append, List.take_left, List.drop_left]

/-! ## Structural facts about serializer output -/

theorem getLast?_ne_nl_of_no_nl {l : List Char} (h : '\n' ∉ l) :
    l.getLast? ≠ some '\n' := fun hc => h (mem_of_getLast? hc)

theorem head?_ne_nl_of_no_nl {l : List Char} (h : '\n' ∉ l) :
    l.head? ≠ some '\n' := fun hc => h (mem_of_head? hc)

theorem head?_append_of_ne_nil (a b : List Char) (h : a ≠ []) :
    (a ++ b).head? = a.head? := by
  cases a with
  | nil => exact absurd rfl h
  | cons x t => simp

theorem escapeChar_no_nl (c : Char) : '\n' ∉ escapeChar c := by
  unfold escapeChar
  split
  · decide
  · decide
  · decide
  · decide
  · decide
  · decide
  · decide
  · rename_i h1 h2 h3 h4 h5 h6 h7
    by_cases hlt : c.toNat < 32
    · have hxa : hexChar (c.toNat / 16) ≠ '\n' := by
        have ha : c.toNat / 16 < 16 := by omega
        revert ha
        generalize c.toNat / 16 = x
        revert x
        decide
      have hxb : hexChar (c.toNat % 16) ≠ '\n' := by
        have hb : c.toNat % 16 < 16 := by omega
        revert hb
        generalize c.toNat % 16 = x
        revert x
        decide
      rw [if_pos hlt]
      intro hmem
      simp only [List.mem_cons, List.not_mem_nil, or_false] at hmem
      rcases hmem with h | h | h | h | h | h
      · exact absurd h (by decide)
      · exact absurd h (by decide)
      · exact absurd h (by decide)
      · exact absurd h (by decide)
      · exact hxa h.symm
      · exact hxb h.symm
    · have hc : c ≠ '\n' := h3
      rw [if_neg hlt]
      intro hmem
      simp only [List.mem_cons, List.not_mem_nil, or_false] at hmem
      exact hc hmem.symm

theorem escapeStr_no_nl (s : List Char) : '\n' ∉ escapeStr s := by
  intro h
  rw [escapeStr, List.mem_flatMap] at h
  obtain ⟨c, _, hc⟩ := h
  exact escapeChar_no_nl c hc

theorem no_nl_of_all_digits {l : List Char} (h : ∀ c ∈ l, c.isDigit = true) :
    '\n' ∉ l := by
  intro hm
  exact absurd (h '\n' hm) (by decide)

theorem serNum_no_nl (m : Int) (d : Nat) : '\n' ∉ serNum m d := by
  unfold serNum
  intro h
  rw [List.mem_append] at h
  rcases h with h | h
  · split at h <;> simp_all
  · split at h
    · exact no_nl_of_all_digits (natChars_digits _) h
    · rw [List.mem_append] at h
      rcases h with h | h
      · exact no_nl_of_all_digits (natChars_digits _) h
      · rw [List.mem_cons] at h
        rcases h with h | h
        · exact absurd h (by decide)
        · rw [List.mem_append] at h
          rcases h with h | h
          · exact absurd (List.eq_of_mem_replicate h) (by decide)
          · exact no_nl_of_all_digits (natChars_digits _) h

theorem serNum_head (m : Int) (d : Nat) :
    ∃ c t, serNum m d = c :: t ∧ (c = '-' ∨ c.isDigit = true) := by
  unfold serNum
  by_cases hm : m < 0
  · exact ⟨'-', _, by rw [if_pos hm]; rfl, Or.inl rfl⟩
  · rw [if_neg hm, List.nil_append]
    by_cases hd : d = 0
    · obtain ⟨c, t, hct, hc⟩ := natChars_head m.natAbs
      exact ⟨c, t, by rw [if_pos hd, hct], Or.inr hc⟩
    · obtain ⟨c, t, hct, hc⟩ := natChars_head (m.natAbs / 10 ^ d)
      refine ⟨c, t ++ '.' :: (List.replicate (d - (natChars (m.natAbs % 10 ^ d)).length) '0'
        ++ natChars (m.natAbs % 10 ^ d)), ?_, Or.inr hc⟩
      rw [if_neg hd]
      show natChars (m.natAbs / 10 ^ d) ++ '.' ::
        (List.replicate (d - (natChars (m.natAbs % 10 ^ d)).length) '0'
          ++ natChars (m.natAbs % 10 ^ d)) = _
      rw [hct]
      rfl

theorem serNum_ne_nil (m : Int) (d : Nat) : serNum m d ≠ [] := by
  obtain ⟨c, t, hct, _⟩ := serNum_head m d
  simp [hct]

theorem pad_no_nl (n : Nat) : '\n' ∉ pad n := by
  intro h
  rw [pad] at h
  exact absurd (List.eq_of_mem_replicate h) (by decide)

theorem pad_succ_head (n : Nat) : (pad (n + 1)).head? = some ' ' := by
  have : 2 * (n + 1) = 2 * n + 1 + 1 := by omega
  rw [pad, this, List.replicate_succ]
  rfl

theorem pad_succ_ne_nil (n : Nat) : pad (n + 1) ≠ [] := by
  have : 2 * (n + 1) = 2 * n + 1 + 1 := by omega
  rw [pad, this, List.replicate_succ]
  simp

/-- The head of `pad n ++ l`, for nonempty `l` whose head is not a newline,
is not a newline. -/
theorem pad_append_head_ne_nl (n : Nat) (l : List Char) (hl : l.head? ≠ some '\n') :
    (pad n ++ l).head? ≠ some '\n' := by
  cases n with
  | zero => simpa [pad] using hl
  | succ k =>
    rw [head?_append_of_ne_nil _ _ (pad_succ_ne_nil k), pad_succ_head]
    decide

theorem ne_nil_of_head?_eq_some {l : List Char} {c : Char} (h : l.head? = some c) :
    l ≠ [] := by
  cases l with
  | nil => simp at h
  | cons x t => simp

mutual
/-- Serialized values contain no blank line, do not end in a newline, and
start with a non-whitespace character that closes nothing. -/
theorem ser_shape : ∀ (n : Nat) (j : Json),
    nlnlFree (serJson n j) = true ∧ (serJson n j).getLast? ≠ some '\n' ∧
      ∃ c t, serJson n j = c :: t ∧ isWsCh c = false ∧ c ≠ ']' ∧ c ≠ '\x7d'
  | n, .str s => by
    have he : serJson n (.str s) = '"' :: (escapeStr s ++ ['"']) := by simp [serJson]
    rw [he]
    refine ⟨?_, ?_, ⟨'"', _, rfl, by decide, by decide, by decide⟩⟩
    · apply nlnlFree_of_no_nl
      intro hmem
      simp only [List.mem_cons, List.mem_append] at hmem
      rcases hmem with h | h | h
      · exact absurd h (by decide)
      · exact escapeStr_no_nl s h
      · rcases h with h | h
        · exact absurd h (by decide)
        · simp at h
    · have : '"' :: (escapeStr s ++ ['"']) = ('"' :: escapeStr s) ++ ['"'] := by simp
      rw [this, List.getLast?_concat]
      decide
  | n, .num m d => by
    have he : serJson n (.num m d) = serNum m d := by simp [serJson]
    rw [he]
    refine ⟨nlnlFree_of_no_nl _ (serNum_no_nl m d),
      getLast?_ne_nl_of_no_nl (serNum_no_nl m d), ?_⟩
    obtain ⟨c, t, hct, hc⟩ := serNum_head m d
    refine ⟨c, t, hct, ?_, ?_, ?_⟩
    · rcases hc with rfl | hdig
      · decide
      · exact (isDigit_ne c hdig).2.2.2.2.2.1
    · rcases hc with rfl | hdig
      · decide
      · exact (isDigit_ne c hdig).2.2.2.2.2.2.1
    · rcases hc with rfl | hdig
      · decide
      · exact (isDigit_ne c hdig).2.2.2.2.2.2.2.1
  | n, .arr [] => by
    have he : serJson n (.arr []) = ['[', ']'] := by simp [serJson]
    rw [he]
    exact ⟨by decide, by decide, ⟨'[', _, rfl, by decide, by decide, by decide⟩⟩
  | n, .arr (x :: xs) => by
    obtain ⟨hI, hIlast, c, t, hIct, hIws, _, _⟩ := items_shape (n + 1) x xs
    have hIne : serItems (n + 1) x xs ≠ [] := by rw [hIct]; simp
    have he : serJson n (.arr (x :: xs)) = '[' :: '\n' ::
        (pad (n + 1) ++ (serItems (n + 1) x xs ++ '\n' :: (pad n ++ [']']))) := by
      simp [serJson]
    rw [he]
    have hEeq : '[' :: '\n' ::
        (pad (n + 1) ++ (serItems (n + 1) x xs ++ '\n' :: (pad n ++ [']'])))
        = (['[', '\n'] ++ pad (n + 1)) ++
          (serItems (n + 1) x xs ++ ('\n' :: (pad n ++ [']']))) := by
      simp
    have hA : nlnlFree (['[', '\n'] ++ pad (n + 1)) = true := by
      apply nlnlFree_append _ _ (by decide) (nlnlFree_of_no_nl _ (pad_no_nl _))
      right
      rw [pad_succ_head n]
      decide
    have hAlast : (['[', '\n'] ++ pad (n + 1)).getLast? ≠ some '\n' := by
      rw [List.getLast?_append_of_ne_nil _ (pad_succ_ne_nil n)]
      exact getLast?_ne_nl_of_no_nl (pad_no_nl _)
    have hEnd : nlnlFree ('\n' :: (pad n ++ [']'])) = true := by
      have : ('\n' :: (pad n ++ [']'])) = ['\n'] ++ (pad n ++ [']']) := rfl
      rw [this]
      apply nlnlFree_append_no_nl_right _ _ (by decide)
      intro hm
      rw [List.mem_append] at hm
      rcases hm with h | h
      · exact pad_no_nl n h
      · simp only [List.mem_singleton] at h
        exact absurd h (by decide)
    have hMid : nlnlFree (serItems (n + 1) x xs ++ ('\n' :: (pad n ++ [']']))) = true :=
      nlnlFree_append _ _ hI hEnd (Or.inl hIlast)
    refine ⟨?_, ?_, ⟨'[', _, rfl, by decide, by decide, by decide⟩⟩
    · rw [hEeq]
      exact nlnlFree_append _ _ hA hMid (Or.inl hAlast)
    · have : '[' :: '\n' ::
          (pad (n + 1) ++ (serItems (n + 1) x xs ++ '\n' :: (pad n ++ [']'])))
          = ('[' :: '\n' :: (pad (n + 1) ++ (serItems (n + 1) x xs ++ '\n' :: pad n)))
            ++ [']'] := by
        simp
      rw [this, List.getLast?_concat]
      decide
  | n, .obj [] => by
    have he : serJson n (.obj []) = ['\x7b', '\x7d'] := by simp [serJson]
    rw [he]
    exact ⟨by decide, by decide, ⟨'\x7b', _, rfl, by decide, by decide, by decide⟩⟩
  | n, .obj ((k, v) :: fs) => by
    obtain ⟨hF, hFlast, hFhead⟩ := fields_shape (n + 1) k v fs
    have hFne : serFields (n + 1) k v fs ≠ [] := ne_nil_of_head?_eq_some hFhead
    have he : serJson n (.obj ((k, v) :: fs)) = '\x7b' :: '\n' ::
        (pad (n + 1) ++ (serFields (n + 1) k v fs ++ '\n' :: (pad n ++ ['\x7d']))) := by
      simp [serJson]
    rw [he]
    have hEeq : '\x7b' :: '\n' ::
        (pad (n + 1) ++ (serFields (n + 1) k v fs ++ '\n' :: (pad n ++ ['\x7d'])))
        = (['\x7b', '\n'] ++ pad (n + 1)) ++
          (serFields (n + 1) k v fs ++ ('\n' :: (pad n ++ ['\x7d']))) := by
      simp
    have hA : nlnlFree (['\x7b', '\n'] ++ pad (n + 1)) = true := by
      apply nlnlFree_append _ _ (by decide) (nlnlFree_of_no_nl _ (pad_no_nl _))
      right
      rw [pad_succ_head n]
      decide
    have hAlast : (['\x7b', '\n'] ++ pad (n + 1)).getLast? ≠ some '\n' := by
      rw [List.getLast?_append_of_ne_nil _ (pad_succ_ne_nil n)]
      exact getLast?_ne_nl_of_no_nl (pad_no_nl _)
    have hEnd : nlnlFree ('\n' :: (pad n ++ ['\x7d'])) = true := by
      have : ('\n' :: (pad n ++ ['\x7d'])) = ['\n'] ++ (pad n ++ ['\x7d']) := rfl
      rw [this]
      apply nlnlFree_append_no_nl_right _ _ (by decide)
      intro hm
      rw [List.mem_append] at hm
      rcases hm with h | h
      · exact pad_no_nl n h
      · simp only [List.mem_singleton] at h
        exact absurd h (by decide)
    have hMid : nlnlFree (serFields (n + 1) k v fs ++ ('\n' :: (pad n ++ ['\x7d']))) = true :=
      nlnlFree_append _ _ hF hEnd (Or.inl hFlast)
    refine ⟨?_, ?_, ⟨'\x7b', _, rfl, by decide, by decide, by decide⟩⟩
    · rw [hEeq]
      exact nlnlFree_append _ _ hA hMid (Or.inl hAlast)
    · have : '\x7b' :: '\n' ::
          (pad (n + 1) ++ (serFields (n + 1) k v fs ++ '\n' :: (pad n ++ ['\x7d'])))
          = ('\x7b' :: '\n' :: (pad (n + 1) ++ (serFields (n + 1) k v fs ++ '\n' :: pad n)))
            ++ ['\x7d'] := by
        simp
      rw [this, List.getLast?_concat]
      decide
termination_by n j => sizeOf j
/-- The items of a non-empty array share the shape facts of single values. -/
theorem items_shape : ∀ (n : Nat) (x : Json) (xs : List Json),
    nlnlFree (serItems n x xs) = true ∧ (serItems n x xs).getLast? ≠ some '\n' ∧
      ∃ c t, serItems n x xs = c :: t ∧ isWsCh c = false ∧ c ≠ ']' ∧ c ≠ '\x7d'
  | n, x, [] => by
    have he : serItems n x [] = serJson n x := by simp [serItems]
    rw [he]
    exact ser_shape n x
  | n, x, y :: ys => by
    obtain ⟨hS, hSlast, c, t, hSct, hSws, hSne1, hSne2⟩ := ser_shape n x
    obtain ⟨hI, hIlast, c2, t2, hIct, hIws, _, _⟩ := items_shape n y ys
    have hIne : serItems n y ys ≠ [] := by rw [hIct]; simp
    have he : serItems n x (y :: ys)
        = serJson n x ++ ',' :: '\n' :: (pad n ++ serItems n y ys) := by
      simp [serItems]
    rw [he]
    have hIhead : (pad n ++ serItems n y ys).head? ≠ some '\n' := by
      apply pad_append_head_ne_nl
      rw [hIct]
      intro hcon
      simp only [List.head?_cons, Option.some.injEq] at hcon
      exact (ne_nl_of_not_ws hIws) hcon
    have hrest : nlnlFree (',' :: '\n' :: (pad n ++ serItems n y ys)) = true := by
      have : (',' :: '\n' :: (pad n ++ serItems n y ys))
          = [',', '\n'] ++ (pad n ++ serItems n y ys) := rfl
      rw [this]
      apply nlnlFree_append _ _ (by decide)
        (nlnlFree_append_no_nl_left _ _ (pad_no_nl n) hI)
      right
      exact hIhead
    have hrestlast : (',' :: '\n' :: (pad n ++ serItems n y ys)).getLast? ≠ some '\n' := by
      have : (',' :: '\n' :: (pad n ++ serItems n y ys))
          = (',' :: '\n' :: pad n) ++ serItems n y ys := by simp
      rw [this, List.getLast?_append_of_ne_nil _ hIne]
      exact hIlast
    refine ⟨?_, ?_, ?_⟩
    · exact nlnlFree_append _ _ hS hrest (Or.inl hSlast)
    · rw [List.getLast?_append_of_ne_nil _ (by simp)]
      exact hrestlast
    · rw [hSct, List.cons_append]
      exact ⟨c, _, rfl, hSws, hSne1, hSne2⟩
termination_by n x xs => sizeOf x + sizeOf xs
/-- The members of a non-empty object share the shape facts, and start with
the opening quote of the first key. -/
theorem fields_shape : ∀ (n : Nat) (k : List Char) (v : Json)
    (fs : List (List Char × Json)),
    nlnlFree (serFields n k v fs) = true ∧ (serFields n k v fs).getLast? ≠ some '\n' ∧
      (serFields n k v fs).head? = some '"'
  | n, k, v, [] => by
    obtain ⟨hS, hSlast, c, t, hSct, _, _, _⟩ := ser_shape n v
    have hSne : serJson n v ≠ [] := by rw [hSct]; simp
    have he : serFields n k v []
        = '"' :: (escapeStr k ++ '"' :: ':' :: ' ' :: serJson n v) := by
      simp [serFields]
    rw [he]
    have hseg : '"' :: (escapeStr k ++ '"' :: ':' :: ' ' :: serJson n v)
        = ('"' :: escapeStr k ++ ['"', ':', ' ']) ++ serJson n v := by simp
    refine ⟨?_, ?_, rfl⟩
    · rw [hseg]
      apply nlnlFree_append_no_nl_left
      · intro hm
        simp only [List.cons_append, List.mem_cons, List.mem_append] at hm
        rcases hm with h | h | h
        · exact absurd h (by decide)
        · exact escapeStr_no_nl k h
        · simp only [List.mem_cons, List.not_mem_nil, or_false] at h
          rcases h with h | h | h <;> exact absurd h (by decide)
      · exact hS
    · rw [hseg, List.getLast?_append_of_ne_nil _ hSne]
      exact hSlast
  | n, k, v, (k2, v2) :: fs => by
    obtain ⟨hLnl, hLlast, hLhead⟩ := fields_shape n k v []
    obtain ⟨hF, hFlast, hFhead⟩ := fields_shape n k2 v2 fs
    have hFne : serFields n k2 v2 fs ≠ [] := ne_nil_of_head?_eq_some hFhead
    have hLne : serFields n k v [] ≠ [] := ne_nil_of_head?_eq_some hLhead
    have he : serFields n k v ((k2, v2) :: fs)
        = serFields n k v [] ++ ',' :: '\n' :: (pad n ++ serFields n k2 v2 fs) := by
      simp [serFields]
    rw [he]
    have hFheadne : (pad n ++ serFields n k2 v2 fs).head? ≠ some '\n' := by
      apply pad_append_head_ne_nl
      rw [hFhead]
      decide
    have hrest : nlnlFree (',' :: '\n' :: (pad n ++ serFields n k2 v2 fs)) = true := by
      have : (',' :: '\n' :: (pad n ++ serFields n k2 v2 fs))
          = [',', '\n'] ++ (pad n ++ serFields n k2 v2 fs) := rfl
      rw [this]
      apply nlnlFree_append _ _ (by decide)
        (nlnlFree_append_no_nl_left _ _ (pad_no_nl n) hF)
      right
      exact hFheadne
    have hrestlast : (',' :: '\n' :: (pad n ++ serFields n k2 v2 fs)).getLast?
        ≠ some '\n' := by
      have : (',' :: '\n' :: (pad n ++ serFields n k2 v2 fs))
          = (',' :: '\n' :: pad n) ++ serFields n k2 v2 fs := by simp
      rw [this, List.getLast?_append_of_ne_nil _ hFne]
      exact hFlast
    refine ⟨?_, ?_, ?_⟩
    · exact nlnlFree_append _ _ hLnl hrest (Or.inl hLlast)
    · rw [List.getLast?_append_of_ne_nil _ (by simp)]
      exact hrestlast
    · rw [head?_append_of_ne_nil _ _ hLne]
      exact hLhead
termination_by n k v fs => sizeOf v + sizeOf fs
end

/-! ## Association-list (Python dict) lemmas -/

theorem bMem_iff (l : List (List Char)) (k : List Char) : bMem l k = true ↔ k ∈ l := by
  induction l with
  | nil => simp [bMem]
  | cons x t ih =>
    by_cases hx : x = k
    · simp [bMem, hx]
    · simp [bMem, hx, ih]
      intro h
      exact absurd h.symm hx

theorem memKey_iff (fs : List (List Char × Json)) (k : List Char) :
    memKey fs k = true ↔ k ∈ keyList fs := by
  induction fs with
  | nil => simp [memKey, keyList]
  | cons p t ih =>
    obtain ⟨k', v⟩ := p
    by_cases hx : k' = k
    · simp [memKey, hx, keyList]
    · simp [memKey, hx, keyList] at ih ⊢
      rw [ih]
      constructor
      · intro h
        exact Or.inr h
      · intro h
        rcases h with h | h
        · exact absurd h.symm hx
        · exact h

theorem memKey_append (a b : List (List Char × Json)) (k : List Char) :
    memKey (a ++ b) k = (memKey a k || memKey b k) := by
  induction a with
  | nil => simp [memKey]
  | cons p t ih =>
    obtain ⟨k', v⟩ := p
    by_cases hx : k' = k
    · simp [memKey, hx]
    · simp [memKey, hx, ih]

theorem setKey_append_of_not_mem (acc : List (List Char × Json)) (k : List Char)
    (v : Json) (h : memKey acc k = false) : setKey acc k v = acc ++ [(k, v)] := by
  induction acc with
  | nil => rfl
  | cons p t ih =>
    obtain ⟨k', v'⟩ := p
    rw [memKey] at h
    by_cases hx : k' = k
    · rw [if_pos hx] at h
      exact Bool.noConfusion h
    · rw [if_neg hx] at h
      rw [setKey, if_neg hx, ih h]
      rfl

theorem dedupAux_append : ∀ (fs acc : List (List Char × Json)),
    (∀ p ∈ fs, memKey acc p.1 = false) → bNodup (keyList fs) = true →
    dedupAux acc fs = acc ++ fs
  | [], acc, _, _ => by simp [dedupAux]
  | (k, v) :: t, acc, hmem, hnd => by
    rw [dedupAux, setKey_append_of_not_mem acc k v (hmem (k, v) (by simp))]
    have hnd' : bNodup (keyList t) = true := by
      rw [keyList, List.map_cons, bNodup, Bool.and_eq_true] at hnd
      exact hnd.2
    have hknot : bMem (keyList t) k = false := by
      rw [keyList, List.map_cons, bNodup, Bool.and_eq_true] at hnd
      have := hnd.1
      rwa [Bool.not_eq_true'] at this
    have hmem' : ∀ p ∈ t, memKey (acc ++ [(k, v)]) p.1 = false := by
      intro p hp
      rw [memKey_append]
      have h1 : memKey acc p.1 = false := hmem p (by simp [hp])
      have h2 : memKey [(k, v)] p.1 = false := by
        rw [memKey]
        rw [if_neg ?_]
        · rfl
        · intro hkp
          have : p.1 ∈ keyList t := by
            rw [keyList, List.mem_map]
            exact ⟨p, hp, rfl⟩
          rw [← hkp] at this
          rw [← bMem_iff] at this
          rw [hknot] at this
          exact Bool.noConfusion this
      rw [h1, h2]
      rfl
    rw [dedupAux_append t (acc ++ [(k, v)]) hmem' hnd']
    simp

theorem dedupFields_self (fs : List (List Char × Json)) (h : bNodup (keyList fs) = true) :
    dedupFields fs = fs := by
  rw [dedupFields, dedupAux_append fs [] (fun p _ => rfl) h]
  rfl

/-! ## The codec round-trip -/

theorem skipWs_space (r : List Char) : skipWs (' ' :: r) = skipWs r := by
  simp [skipWs, isWsCh]

theorem parseVal_quote (f : Nat) (T : List Char) :
    parseVal (f + 1) ('"' :: T) = (parseStrBody T).map fun p => (.str p.1, p.2) := rfl

theorem parseVal_open_arr (f : Nat) (T : List Char) :
    parseVal (f + 1) ('[' :: T) =
      (match skipWs T with
       | [] => none
       | c1 :: r1 =>
         if c1 = ']' then some (.arr [], r1)
         else (parseItems f (c1 :: r1)).map fun p => (.arr p.1, p.2)) := rfl

theorem parseVal_open_obj (f : Nat) (T : List Char) :
    parseVal (f + 1) ('\x7b' :: T) =
      (match skipWs T with
       | [] => none
       | c1 :: r1 =>
         if c1 = '\x7d' then some (.obj [], r1)
         else (parseFields f (c1 :: r1)).map fun p => (.obj (dedupFields p.1), p.2)) := rfl

theorem parseVal_to_num (f : Nat) (c : Char) (T : List Char) (h1 : ¬ c = '"')
    (h2 : ¬ c = '[') (h3 : ¬ c = '\x7b') (h4 : (c = '-' || c.isDigit) = true) :
    parseVal (f + 1) (c :: T) = parseNum (c :: T) := by
  rw [parseVal.eq_def]
  simp [h1, h2, h3, h4]

theorem parseItems_step (f : Nat) (cs : List Char) :
    parseItems (f + 1) cs =
      (match parseVal f cs with
       | none => none
       | some (j, r) =>
         match skipWs r with
         | [] => none
         | c :: r2 =>
           if c = ',' then (parseItems f (skipWs r2)).map fun p => (j :: p.1, p.2)
           else if c = ']' then some ([j], r2)
           else none) := rfl

theorem parseFields_step (f : Nat) (cs : List Char) :
    parseFields (f + 1) cs =
      (match cs with
       | [] => none
       | c :: r0 =>
         if c = '"' then
           match parseStrBody r0 with
           | none => none
           | some (k, r1) =>
             match skipWs r1 with
             | [] => none
             | c1 :: r2 =>
               if c1 = ':' then
                 match parseVal f (skipWs r2) with
                 | none => none
                 | some (v, r3) =>
                   match skipWs r3 with
                   | [] => none
                   | c2 :: r4 =>
                     if c2 = ',' then
                       (parseFields f (skipWs r4)).map fun p => ((k, v) :: p.1, p.2)
                     else if c2 = '\x7d' then some ([(k, v)], r4)
                     else none
               else none
         else none) := rfl

mutual
/-- Parsing a serialized wellformed value recovers it exactly, leaving the
remainder untouched, whenever the fuel exceeds the serialized length and the
remainder cannot extend a number literal. -/
theorem rt_val : ∀ (j : Json) (n f : Nat) (rest : List Char),
    Json.wf j = true → (serJson n j).length < f → numStop rest = true →
    parseVal f (serJson n j ++ rest) = some (j, rest)
  | .str s, n, f, rest, _, hf, _ => by
    cases f with
    | zero => exact absurd hf (Nat.not_lt_zero _)
    | succ f' =>
      have harg : serJson n (.str s) ++ rest = '"' :: (escapeStr s ++ '"' :: rest) := by
        simp [serJson]
      rw [harg, parseVal_quote, parseStrBody_run]
      rfl
  | .num m d, n, f, rest, _, hf, hrest => by
    cases f with
    | zero => exact absurd hf (Nat.not_lt_zero _)
    | succ f' =>
      have he : serJson n (.num m d) = serNum m d := by simp [serJson]
      obtain ⟨c, t, hct, hc⟩ := serNum_head m d
      have h1 : ¬ c = '"' := by
        rcases hc with rfl | hdig
        · decide
        · exact (isDigit_ne c hdig).2.2.1
      have h2 : ¬ c = '[' := by
        rcases hc with rfl | hdig
        · decide
        · exact (isDigit_ne c hdig).2.2.2.1
      have h3 : ¬ c = '\x7b' := by
        rcases hc with rfl | hdig
        · decide
        · exact (isDigit_ne c hdig).2.2.2.2.1
      have h4 : (c = '-' || c.isDigit) = true := by
        rcases hc with rfl | hdig
        · simp
        · simp [hdig]
      have harg : serJson n (.num m d) ++ rest = c :: (t ++ rest) := by
        rw [he, hct, List.cons_append]
      rw [harg, parseVal_to_num f' c _ h1 h2 h3 h4, ← List.cons_append, ← hct,
        parseNum_serNum m d rest hrest]
  | .arr [], n, f, rest, _, hf, _ => by
    cases f with
    | zero => exact absurd hf (Nat.not_lt_zero _)
    | succ f' =>
      have harg : serJson n (.arr []) ++ rest = '[' :: (']' :: rest) := by
        simp [serJson]
      rw [harg, parseVal_open_arr, skipWs_cons_not _ (by decide)]
      dsimp only
      rw [if_pos rfl]
  | .arr (x :: xs), n, f, rest, hwf, hf, _ => by
    cases f with
    | zero => exact absurd hf (Nat.not_lt_zero _)
    | succ f' =>
      have hwfl : wfList (x :: xs) = true := by
        simpa [Json.wf] using hwf
      obtain ⟨_, _, c, t, hIct, hIws, hIne1, _⟩ := items_shape (n + 1) x xs
      have he : serJson n (.arr (x :: xs)) = '[' :: '\n' ::
          (pad (n + 1) ++ (serItems (n + 1) x xs ++ '\n' :: (pad n ++ [']']))) := by
        simp [serJson]
      have hlen : (serItems (n + 1) x xs).length + 1 < f' := by
        rw [he] at hf
        simp only [List.length_cons, List.length_append, pad,
          List.length_replicate] at hf
        omega
      have harg : serJson n (.arr (x :: xs)) ++ rest = '[' ::
          ('\n' :: (pad (n + 1) ++ (serItems (n + 1) x xs ++
            '\n' :: (pad n ++ (']' :: rest))))) := by
        rw [he]
        simp
      rw [harg, parseVal_open_arr, skipWs_nl, skipWs_pad, hIct, List.cons_append,
        skipWs_cons_not _ hIws]
      have hkey := rt_items x xs (n + 1) n f' rest hwfl hlen
      rw [hIct, List.cons_append] at hkey
      dsimp only
      rw [if_neg hIne1, hkey]
      rfl
  | .obj [], n, f, rest, _, hf, _ => by
    cases f with
    | zero => exact absurd hf (Nat.not_lt_zero _)
    | succ f' =>
      have harg : serJson n (.obj []) ++ rest = '\x7b' :: ('\x7d' :: rest) := by
        simp [serJson]
      rw [harg, parseVal_open_obj, skipWs_cons_not _ (by decide)]
      dsimp only
      rw [if_pos rfl]
  | .obj ((k, v) :: fs), n, f, rest, hwf, hf, _ => by
    cases f with
    | zero => exact absurd hf (Nat.not_lt_zero _)
    | succ f' =>
      have hwfp : bNodup (keyList ((k, v) :: fs)) = true ∧ wfFields ((k, v) :: fs) = true := by
        have := hwf
        simp only [Json.wf, Bool.and_eq_true] at this
        exact this
      obtain ⟨_, _, hFhead⟩ := fields_shape (n + 1) k v fs
      obtain ⟨c, t, hFct⟩ : ∃ c t, serFields (n + 1) k v fs = c :: t := by
        cases hF : serFields (n + 1) k v fs with
        | nil => rw [hF] at hFhead; exact absurd hFhead (by simp)
        | cons c t => exact ⟨c, t, rfl⟩
      have hcq : c = '"' := by
        rw [hFct] at hFhead
        simpa using hFhead
      have he : serJson n (.obj ((k, v) :: fs)) = '\x7b' :: '\n' ::
          (pad (n + 1) ++ (serFields (n + 1) k v fs ++ '\n' :: (pad n ++ ['\x7d']))) := by
        simp [serJson]
      have hlen : (serFields (n + 1) k v fs).length + 1 < f' := by
        rw [he] at hf
        simp only [List.length_cons, List.length_append, pad,
          List.length_replicate] at hf
        omega
      have harg : serJson n (.obj ((k, v) :: fs)) ++ rest = '\x7b' ::
          ('\n' :: (pad (n + 1) ++ (serFields (n + 1) k v fs ++
            '\n' :: (pad n ++ ('\x7d' :: rest))))) := by
        rw [he]
        simp
      rw [harg, parseVal_open_obj, skipWs_nl, skipWs_pad, hFct, List.cons_append,
        skipWs_cons_not _ (by rw [hcq]; decide)]
      have hkey := rt_fields k v fs (n + 1) n f' rest hwfp.2 hlen
      rw [hFct, List.cons_append] at hkey
      dsimp only
      rw [if_neg (by rw [hcq]; decide), hkey]
      simp only [Option.map_some']
      rw [dedupFields_self _ hwfp.1]
  termination_by j n f rest => sizeOf j
/-- Parsing serialized array items up to the closing bracket recovers them. -/
theorem rt_items : ∀ (x : Json) (xs : List Json) (n m f : Nat) (rest : List Char),
    wfList (x :: xs) = true → (serItems n x xs).length + 1 < f →
    parseItems f (serItems n x xs ++ '\n' :: (pad m ++ (']' :: rest)))
      = some (x :: xs, rest)
  | x, [], n, m, f, rest, hwf, hf => by
    cases f with
    | zero => exact absurd hf (by omega)
    | succ f' =>
      have hwx : Json.wf x = true := by
        simp only [wfList, Bool.and_eq_true] at hwf
        first
        | exact hwf.1
        | exact hwf
      have he : serItems n x [] = serJson n x := by simp [serItems]
      have hflen : (serJson n x).length < f' := by
        rw [he] at hf
        omega
      have hval := rt_val x n f' ('\n' :: (pad m ++ (']' :: rest))) hwx hflen rfl
      rw [he, parseItems_step, hval]
      dsimp only
      rw [skipWs_nl, skipWs_pad, skipWs_cons_not _ (by decide)]
      dsimp only
      rw [if_neg (by decide), if_pos rfl]
  | x, y :: ys, n, m, f, rest, hwf, hf => by
    cases f with
    | zero => exact absurd hf (by omega)
    | succ f' =>
      have hwx : Json.wf x = true := by
        simp only [wfList, Bool.and_eq_true] at hwf
        first
        | exact hwf.1
        | exact hwf
      have hwtail : wfList (y :: ys) = true := by
        simp only [wfList, Bool.and_eq_true] at hwf ⊢
        exact hwf.2
      obtain ⟨_, _, c, t, hIct, hIws, _, _⟩ := items_shape n y ys
      have he : serItems n x (y :: ys)
          = serJson n x ++ ',' :: '\n' :: (pad n ++ serItems n y ys) := by
        simp [serItems]
      have hflen1 : (serJson n x).length < f' := by
        rw [he] at hf
        simp only [List.length_append, List.length_cons] at hf
        omega
      have hflen2 : (serItems n y ys).length + 1 < f' := by
        rw [he] at hf
        simp only [List.length_append, List.length_cons] at hf
        have : 1 ≤ (serJson n x).length := by
          rw [hIct] at hf
          obtain ⟨_, _, c0, t0, hct0, _, _, _⟩ := ser_shape n x
          rw [hct0]
          simp
        omega
      have harg : serItems n x (y :: ys) ++ '\n' :: (pad m ++ (']' :: rest))
          = serJson n x ++ ',' :: ('\n' :: (pad n ++ (serItems n y ys ++
              '\n' :: (pad m ++ (']' :: rest))))) := by
        rw [he]
        simp
      have hval := rt_val x n f' (',' :: ('\n' :: (pad n ++ (serItems n y ys ++
        '\n' :: (pad m ++ (']' :: rest)))))) hwx hflen1 rfl
      rw [harg, parseItems_step, hval]
      dsimp only
      rw [skipWs_cons_not _ (by decide)]
      dsimp only
      rw [if_pos rfl, skipWs_nl, skipWs_pad, hIct, List.cons_append,
        skipWs_cons_not _ hIws, ← List.cons_append, ← hIct,
        rt_items y ys n m f' rest hwtail hflen2]
      rfl
  termination_by x xs n m f rest => sizeOf x + sizeOf xs
/-- Parsing serialized object members up to the closing brace recovers them. -/
theorem rt_fields : ∀ (k : List Char) (v : Json) (fs : List (List Char × Json))
    (n m f : Nat) (rest : List Char),
    wfFields ((k, v) :: fs) = true → (serFields n k v fs).length + 1 < f →
    parseFields f (serFields n k v fs ++ '\n' :: (pad m ++ ('\x7d' :: rest)))
      = some ((k, v) :: fs, rest)
  | k, v, [], n, m, f, rest, hwf, hf => by
    cases f with
    | zero => exact absurd hf (by omega)
    | succ f' =>
      have hwv : Json.wf v = true := by
        simp only [wfFields, Bool.and_eq_true] at hwf
        first
        | exact hwf.1
        | exact hwf
      have he : serFields n k v []
          = '"' :: (escapeStr k ++ '"' :: ':' :: ' ' :: serJson n v) := by
        simp [serFields]
      have hflen : (serJson n v).length < f' := by
        rw [he] at hf
        simp only [List.length_cons, List.length_append] at hf
        omega
      have harg : serFields n k v [] ++ '\n' :: (pad m ++ ('\x7d' :: rest))
          = '"' :: (escapeStr k ++ '"' :: (':' :: (' ' :: (serJson n v ++
              '\n' :: (pad m ++ ('\x7d' :: rest)))))) := by
        rw [he]
        simp
      obtain ⟨_, _, c0, t0, hct0, hws0, _, _⟩ := ser_shape n v
      have hval := rt_val v n f' ('\n' :: (pad m ++ ('\x7d' :: rest))) hwv hflen rfl
      rw [harg, parseFields_step]
      dsimp only
      rw [if_pos rfl, parseStrBody_run]
      dsimp only
      rw [skipWs_cons_not _ (by decide)]
      dsimp only
      rw [if_pos rfl, skipWs_space, hct0, List.cons_append, skipWs_cons_not _ hws0,
        ← List.cons_append, ← hct0, hval]
      dsimp only
      rw [skipWs_nl, skipWs_pad, skipWs_cons_not _ (by decide)]
      dsimp only
      rw [if_neg (by decide), if_pos rfl]
  | k, v, (k2, v2) :: fs, n, m, f, rest, hwf, hf => by
    cases f with
    | zero => exact absurd hf (by omega)
    | succ f' =>
      have hwv : Json.wf v = true := by
        simp only [wfFields, Bool.and_eq_true] at hwf
        first
        | exact hwf.1
        | exact hwf
      have hwtail : wfFields ((k2, v2) :: fs) = true := by
        simp only [wfFields, Bool.and_eq_true] at hwf ⊢
        exact hwf.2
      obtain ⟨_, _, hFhead⟩ := fields_shape n k2 v2 fs
      obtain ⟨c, t, hFct⟩ : ∃ c t, serFields n k2 v2 fs = c :: t := by
        cases hF : serFields n k2 v2 fs with
        | nil => rw [hF] at hFhead; exact absurd hFhead (by simp)
        | cons c t => exact ⟨c, t, rfl⟩
      have hcq : c = '"' := by
        rw [hFct] at hFhead
        simpa using hFhead
      have he : serFields n k v ((k2, v2) :: fs)
          = ('"' :: (escapeStr k ++ '"' :: ':' :: ' ' :: serJson n v)) ++
            ',' :: '\n' :: (pad n ++ serFields n k2 v2 fs) := by
        simp [serFields]
      have hflen1 : (serJson n v).length < f' := by
        rw [he] at hf
        simp only [List.length_cons, List.length_append] at hf
        omega
      have hflen2 : (serFields n k2 v2 fs).length + 1 < f' := by
        rw [he] at hf
        simp only [List.length_cons, List.length_append] at hf
        omega
      have harg : serFields n k v ((k2, v2) :: fs) ++ '\n' :: (pad m ++ ('\x7d' :: rest))
          = '"' :: (escapeStr k ++ '"' :: (':' :: (' ' :: (serJson n v ++
              ',' :: ('\n' :: (pad n ++ (serFields n k2 v2 fs ++
                '\n' :: (pad m ++ ('\x7d' :: rest))))))))) := by
        rw [he]
        simp
      obtain ⟨_, _, c0, t0, hct0, hws0, _, _⟩ := ser_shape n v
      have hval := rt_val v n f' (',' :: ('\n' :: (pad n ++ (serFields n k2 v2 fs ++
        '\n' :: (pad m ++ ('\x7d' :: rest)))))) hwv hflen1 rfl
      rw [harg, parseFields_step]
      dsimp only
      rw [if_pos rfl, parseStrBody_run]
      dsimp only
      rw [skipWs_cons_not _ (by decide)]
      dsimp only
      rw [if_pos rfl, skipWs_space, hct0, List.cons_append, skipWs_cons_not _ hws0,
        ← List.cons_append, ← hct0, hval]
      dsimp only
      rw [skipWs_cons_not _ (by decide)]
      dsimp only
      rw [if_pos rfl, skipWs_nl, skipWs_pad, hFct, List.cons_append,
        skipWs_cons_not _ (by rw [hcq]; decide), ← List.cons_append, ← hFct,
        rt_fields k2 v2 fs n m f' rest hwtail hflen2]
      rfl
  termination_by k v fs n m f rest => sizeOf v + sizeOf fs
end

/-! ## Round-trip of the persisted formats -/

theorem jsonLoads_ser (j : Json) (hwf : Json.wf j = true) :
    jsonLoads (serJson 0 j) = some j := by
  unfold jsonLoads
  obtain ⟨_, _, c, t, hct, hws, _, _⟩ := ser_shape 0 j
  have hskip : skipWs (serJson 0 j) = serJson 0 j := by
    rw [hct]
    exact skipWs_cons_not _ hws
  have hval := rt_val j 0 ((serJson 0 j).length + 1) [] hwf (by omega) rfl
  rw [List.append_nil] at hval
  rw [hskip, hval]
  rfl

theorem extractEmbedded_write (a b : List (List Char × Json)) :
    extractEmbedded (writeEmbedded a b)
      = some (serJson 0 (.obj a), serJson 0 (.obj b)) := by
  obtain ⟨hAfree, hAlast, _⟩ := ser_shape 0 (.obj a)
  obtain ⟨hBfree, hBlast, _⟩ := ser_shape 0 (.obj b)
  have he : writeEmbedded a b = dataLabel ++ (serJson 0 (.obj a) ++ (delimEnd ++
      (shapesLabel ++ (serJson 0 (.obj b) ++ delimEnd)))) := by
    rw [writeEmbedded]
    simp [List.append_assoc]
  have h0 : findFrom dataLabel (writeEmbedded a b) 0 = some 0 := by
    apply findFrom_zero
    rw [he]
    exact begins_self_append _ _
  have hdrop1 : (writeEmbedded a b).drop dataLabel.length
      = serJson 0 (.obj a) ++ ';' :: '\n' :: '\n' ::
          (shapesLabel ++ (serJson 0 (.obj b) ++ delimEnd)) := by
    rw [he, List.drop_left]
    rfl
  have hbegmid : begins delimMid (';' :: '\n' :: '\n' ::
      (shapesLabel ++ (serJson 0 (.obj b) ++ delimEnd))) = true := by
    have hform : ';' :: '\n' :: '\n' ::
        (shapesLabel ++ (serJson 0 (.obj b) ++ delimEnd))
        = delimMid ++ (' ' :: '=' :: ' ' :: (serJson 0 (.obj b) ++ delimEnd)) := rfl
    rw [hform]
    exact begins_self_append _ _
  have he1 : findFrom delimMid (writeEmbedded a b) dataLabel.length
      = some (dataLabel.length + (serJson 0 (.obj a)).length) :=
    find_delim _ _ _ _ _ hdrop1 hAfree hAlast rfl rfl hbegmid
  have he2form : writeEmbedded a b
      = (dataLabel ++ serJson 0 (.obj a)) ++ (delimEnd ++
          (shapesLabel ++ (serJson 0 (.obj b) ++ delimEnd))) := by
    rw [he]
    simp [List.append_assoc]
  have hdrop2 : (writeEmbedded a b).drop (dataLabel.length + (serJson 0 (.obj a)).length)
      = ';' :: '\n' :: '\n' :: (shapesLabel ++ (serJson 0 (.obj b) ++ delimEnd)) := by
    have hlen : dataLabel.length + (serJson 0 (.obj a)).length
        = (dataLabel ++ serJson 0 (.obj a)).length := (List.length_append _ _).symm
    rw [hlen, he2form, List.drop_left]
    rfl
  have hi2 : findFrom shapesLabel (writeEmbedded a b)
      (dataLabel.length + (serJson 0 (.obj a)).length)
      = some (dataLabel.length + (serJson 0 (.obj a)).length + 3) :=
    find_label _ _ _ hdrop2 (begins_self_append _ _)
  have he3form : writeEmbedded a b
      = (((dataLabel ++ serJson 0 (.obj a)) ++ delimEnd) ++ shapesLabel) ++
          (serJson 0 (.obj b) ++ delimEnd) := by
    rw [he]
    simp [List.append_assoc]
  have harith : dataLabel.length + (serJson 0 (.obj a)).length + 3 + shapesLabel.length
      = ((((dataLabel ++ serJson 0 (.obj a)) ++ delimEnd) ++ shapesLabel)).length := by
    simp only [List.length_append]
    have h3 : delimEnd.length = 3 := rfl
    omega
  have hdrop3 : (writeEmbedded a b).drop
      (dataLabel.length + (serJson 0 (.obj a)).length + 3 + shapesLabel.length)
      = serJson 0 (.obj b) ++ ';' :: '\n' :: '\n' :: [] := by
    rw [harith, he3form, List.drop_left]
    rfl
  have he2 : findFrom delimEnd (writeEmbedded a b)
      (dataLabel.length + (serJson 0 (.obj a)).length + 3 + shapesLabel.length)
      = some (dataLabel.length + (serJson 0 (.obj a)).length + 3 + shapesLabel.length
          + (serJson 0 (.obj b)).length) :=
    find_delim _ _ _ _ _ hdrop3 hBfree hBlast rfl rfl rfl
  have hslice1 : sliceStr (writeEmbedded a b) dataLabel.length
      (dataLabel.length + (serJson 0 (.obj a)).length) = serJson 0 (.obj a) := by
    have hform : writeEmbedded a b = dataLabel ++ serJson 0 (.obj a) ++
        (delimEnd ++ (shapesLabel ++ (serJson 0 (.obj b) ++ delimEnd))) := by
      rw [he]
      simp [List.append_assoc]
    rw [hform]
    exact sliceStr_exact _ _ _
  have hslice2 : sliceStr (writeEmbedded a b)
      (dataLabel.length + (serJson 0 (.obj a)).length + 3 + shapesLabel.length)
      (dataLabel.length + (serJson 0 (.obj a)).length + 3 + shapesLabel.length
        + (serJson 0 (.obj b)).length) = serJson 0 (.obj b) := by
    have hform : writeEmbedded a b = (((dataLabel ++ serJson 0 (.obj a)) ++ delimEnd)
        ++ shapesLabel) ++ serJson 0 (.obj b) ++ delimEnd := by
      rw [he]
      simp [List.append_assoc]
    rw [hform, harith]
    exact sliceStr_exact _ _ _
  rw [extractEmbedded, h0]
  dsimp only
  rw [Nat.zero_add, he1]
  dsimp only
  rw [hi2]
  dsimp only
  have hslen : shapesLabel.length = 23 := rfl
  rw [he2]
  dsimp only
  rw [hslice1, hslice2]

/-- The embedded-format round-trip: reading back a written dataset recovers
both maps exactly, for any wellformed (real Python) data. -/
theorem readEmbedded_write (a b : List (List Char × Json))
    (ha : Json.wf (.obj a) = true) (hb : Json.wf (.obj b) = true) :
    readEmbedded (writeEmbedded a b) = some (.obj a, .obj b) := by
  rw [readEmbedded, extractEmbedded_write]
  dsimp only
  rw [jsonLoads_ser _ ha, jsonLoads_ser _ hb]

/-- The canonical-format round-trip. -/
theorem readCanonical_write (a b : List (List Char × Json))
    (ha : Json.wf (.obj a) = true) (hb : Json.wf (.obj b) = true) :
    readCanonical (writeCanonical a b) = some (.obj a, .obj b) := by
  rw [readCanonical, writeCanonical]
  have hkeys : keyList [("mbtaBusData".data, Json.obj a), ("busRouteShapes".data, Json.obj b)]
      = ["mbtaBusData".data, "busRouteShapes".data] := rfl
  have hwftop : Json.wf (.obj [("mbtaBusData".data, .obj a),
      ("busRouteShapes".data, .obj b)]) = true := by
    have h1 : bNodup (keyList [("mbtaBusData".data, Json.obj a),
        ("busRouteShapes".data, Json.obj b)]) = true := by
      rw [hkeys]
      decide
    have h2 : wfFields [("mbtaBusData".data, Json.obj a),
        ("busRouteShapes".data, Json.obj b)] = true := by
      simp only [wfFields, Bool.and_eq_true]
      exact ⟨ha, hb, trivial⟩
    simp only [Json.wf, Bool.and_eq_true]
    exact ⟨h1, h2⟩
  rw [jsonLoads_ser _ hwftop]
  dsimp only
  rw [show lookupKey [("mbtaBusData".data, Json.obj a), ("busRouteShapes".data, Json.obj b)]
      "mbtaBusData".data = some (Json.obj a) from by rw [lookupKey, if_pos rfl]]
  rw [show lookupKey [("mbtaBusData".data, Json.obj a), ("busRouteShapes".data, Json.obj b)]
      "busRouteShapes".data = some (Json.obj b) from by
    rw [lookupKey, if_neg (by decide), lookupKey, if_pos rfl]]

/-! ## The pipeline models

The network is an oracle `resps : Nat → Resp` giving each attempt's outcome;
collectors are then deterministic. Attribute keys and fixed strings: -/

def latKey : List Char := "latitude".data
def lonKey : List Char := "longitude".data
def nameKey : List Char := "name".data
def coordsKey : List Char := "coords".data
def typeKey : List Char := "type".data
def stopIdKey : List Char := "stopId".data
def shapeIdKey : List Char := "shape_id".data
def polyKey : List Char := "polyline".data
def unknownStr : List Char := "Unknown".data
def busStr : List Char := "Bus".data

/-- A raw JSON:API entity of an upstream response: `id` plus `attributes`
(the schema spec §6 fixes for this collaborator). -/
structure Entity where
  id : List Char
  attributes : List (List Char × Json)

/-- One attempt's outcome at the HTTP layer: rate-limited (429), any other
transport/HTTP error (connection failure, non-2xx from `raise_for_status`,
an unparseable body), or a 200 whose body carried these `data` entities. -/
inductive Resp where
  | rate
  | err
  | ok (data : List Entity)

/-- Python `float(x)` on a parsed JSON value, in the decimal model: numbers
convert to themselves, numeric-literal strings parse, anything else raises
(`none`). -/
def pyFloat : Json → Option (Int × Nat)
  | .num m d => some (m, d)
  | .str s =>
    (match parseNum s with
     | some (.num m d, []) => some (m, d)
     | _ => none)
  | _ => none

/-- The admission check `'latitude' in attributes and 'longitude' in
attributes`. -/
def hasCoords (e : Entity) : Bool :=
  memKey e.attributes latKey && memKey e.attributes lonKey

/-- `float(attributes['latitude'])` and `float(attributes['longitude'])`;
`none` means one conversion raised. -/
def convCoords (e : Entity) : Option ((Int × Nat) × (Int × Nat)) :=
  match lookupKey e.attributes latKey, lookupKey e.attributes lonKey with
  | some la, some lo =>
    (match pyFloat la, pyFloat lo with
     | some pa, some pb => some (pa, pb)
     | _, _ => none)
  | _, _ => none

/-- The stop record built for an admitted entity. Total: the default
coordinates are never used when admission (`convCoords` succeeding) holds. -/
def mkStop (e : Entity) : Json :=
  .obj [(nameKey, getKeyD e.attributes nameKey (.str unknownStr)),
        (coordsKey, .arr [.num ((convCoords e).getD ((0, 0), (0, 0))).1.1
                            ((convCoords e).getD ((0, 0), (0, 0))).1.2,
                          .num ((convCoords e).getD ((0, 0), (0, 0))).2.1
                            ((convCoords e).getD ((0, 0), (0, 0))).2.2]),
        (typeKey, .str busStr),
        (stopIdKey, .str e.id)]

/-- The per-response stop loop: entities without both coordinate keys are
skipped silently; a failing `float()` raises out of the loop
(`Except.error`), to be caught by the enclosing retry handler. -/
def processStops : List Entity → Except Unit (List Json)
  | [] => .ok []
  | e :: es =>
    if hasCoords e then
      match convCoords e with
      | some _ => (processStops es).map (mkStop e :: ·)
      | none => .error ()
    else processStops es

/-- The per-response shape loop: keep entities carrying a `polyline`
attribute. It never raises. -/
def processShapes : List Entity → List Json
  | [] => []
  | e :: es =>
    if memKey e.attributes polyKey then
      Json.obj [(shapeIdKey, .str e.id),
                (polyKey, getKeyD e.attributes polyKey (.str []))] :: processShapes es
    else processShapes es

/-- The shape loop, in the fetcher's common result type. -/
def processShapesE (es : List Entity) : Except Unit (List Json) := .ok (processShapes es)

/-- The retry skeleton shared (textually duplicated) by the four fetchers:
`attempt` is the 0-based loop index, `remaining` the attempts left including
the current one. The result pairs the returned record list with the total
seconds slept, making backoff observable. On 429 before the last attempt it
sleeps `(attempt+1) * unit`; on any error (including a raising record loop)
it sleeps `flat`; on the last attempt it returns `[]` without sleeping. -/
def fetchAux (unit flat : Nat) (process : List Entity → Except Unit (List Json))
    (resps : Nat → Resp) : Nat → Nat → List Json × Nat
  | _, 0 => ([], 0)
  | attempt, rem + 1 =>
    match resps attempt with
    | .rate =>
      if rem = 0 then ([], 0)
      else
        let r := fetchAux unit flat process resps (attempt + 1) rem
        (r.1, (attempt + 1) * unit + r.2)
    | .err =>
      if rem = 0 then ([], 0)
      else
        let r := fetchAux unit flat process resps (attempt + 1) rem
        (r.1, flat + r.2)
    | .ok es =>
      match process es with
      | .ok out => (out, 0)
      | .error _ =>
        if rem = 0 then ([], 0)
        else
          let r := fetchAux unit flat process resps (attempt + 1) rem
          (r.1, flat + r.2)

/-- A whole fetch call: `maxRetries` attempts from index 0. -/
def fetchLoop (maxRetries unit flat : Nat)
    (process : List Entity → Except Unit (List Json)) (resps : Nat → Resp) :
    List Json × Nat :=
  fetchAux unit flat process resps 0 maxRetries

namespace GenScript

/-- `get_route_stops` of `generate-bus-data-api.py`: 3 attempts, 2 s unit
backoff on 429, flat 2 s on other errors. -/
def get_route_stops (resps : Nat → Resp) : List Json × Nat :=
  fetchLoop 3 2 2 processStops resps

/-- `get_route_shapes` of `generate-bus-data-api.py`. -/
def get_route_shapes (resps : Nat → Resp) : List Json × Nat :=
  fetchLoop 3 2 2 processShapesE resps

end GenScript

namespace RetryScript

/-- `get_route_stops` of `retry-failed-routes.py`: 5 attempts, 3 s unit
backoff on 429, flat 3 s on other errors. -/
def get_route_stops (resps : Nat → Resp) : List Json × Nat :=
  fetchLoop 5 3 3 processStops resps

/-- `get_route_shapes` of `retry-failed-routes.py`. -/
def get_route_shapes (resps : Nat → Resp) : List Json × Nat :=
  fetchLoop 5 3 3 processShapesE resps

end RetryScript

/-- The first-pass store site, `if stops: mbta_bus_data[route_id] = stops`:
plain dict assignment guarded only by non-emptiness of the fetched list. -/
def storeFirstPass (m : List (List Char × Json)) (r : List Char) (recs : List Json) :
    List (List Char × Json) :=
  if recs.isEmpty then m else setKey m r (.arr recs)

/-- The repair-merge store site, `if route_id not in m: ... if stops:
m[route_id] = stops`: insert only when the key is absent and the fetched
list non-empty. -/
def storeRepair (m : List (List Char × Json)) (r : List Char) (recs : List Json) :
    List (List Char × Json) :=
  if memKey m r then m else if recs.isEmpty then m else setKey m r (.arr recs)

/-- One route of the `generate_bus_data` loop: fetch stops and shapes for the
route, store each when non-empty. -/
def processRoute (fetchS fetchH : List Char → List Json)
    (ab : List (List Char × Json) × List (List Char × Json)) (r : List Char) :
    List (List Char × Json) × List (List Char × Json) :=
  (storeFirstPass ab.1 r (fetchS r), storeFirstPass ab.2 r (fetchH r))

/-- `generate_bus_data`, observationally: `none` when the route list is empty
(the run aborts before writing anything); otherwise the contents written to
the embedded `.js` file and the canonical `.json` file, built from the same
two in-memory maps. The fetchers are the collectors' results per route. -/
def generate_bus_data (routes : List (List Char))
    (fetchS fetchH : List Char → List Json) : Option (List Char × List Char) :=
  if routes.isEmpty then none
  else
    let ab := routes.foldl (processRoute fetchS fetchH) ([], [])
    some (writeEmbedded ab.1 ab.2, writeCanonical ab.1 ab.2)

/-- `routes_with_stops_only` of the repair script, determinized to key
order (the source iterates a Python set, whose order is unspecified). -/
def stopsOnlyRouteIds (a b : List (List Char × Json)) : List (List Char) :=
  (keyList a).filter fun k => !(memKey b k)

/-- `routes_with_shapes_only`, determinized the same way. -/
def shapesOnlyRouteIds (a b : List (List Char × Json)) : List (List Char) :=
  (keyList b).filter fun k => !(memKey a k)

/-- `routes_to_retry = list(routes_with_stops_only) +
list(routes_with_shapes_only)`. -/
def routesToRetry (a b : List (List Char × Json)) : List (List Char) :=
  stopsOnlyRouteIds a b ++ shapesOnlyRouteIds a b

/-- The retry loop of `retry_failed_routes`: for each route, fetch stops only
when the stops map lacks the key, shapes only when the shapes map lacks it,
storing non-empty results; returns the final maps and, in order, the routes
for which the stop and shape collectors were invoked. -/
def mergeLoop (fetchS fetchH : List Char → List Json) :
    List (List Char) → List (List Char × Json) → List (List Char × Json) →
    List (List Char × Json) × List (List Char × Json) ×
      List (List Char) × List (List Char)
  | [], a, b => (a, b, [], [])
  | r :: rest, a, b =>
    let a1 := if memKey a r then a
      else if (fetchS r).isEmpty then a else setKey a r (.arr (fetchS r))
    let sc1 : List (List Char) := if memKey a r then [] else [r]
    let b1 := if memKey b r then b
      else if (fetchH r).isEmpty then b else setKey b r (.arr (fetchH r))
    let hc1 : List (List Char) := if memKey b r then [] else [r]
    let rec0 := mergeLoop fetchS fetchH rest a1 b1
    (rec0.1, rec0.2.1, sc1 ++ rec0.2.2.1, hc1 ++ rec0.2.2.2)

/-- What a repair run did: which routes each collector was called for, and
the file content written (`none`: the run returned without writing). -/
structure RepairOut where
  stopCalls : List (List Char)
  shapeCalls : List (List Char)
  written : Option (List Char)

/-- `retry_failed_routes`, observationally. Aborts (no calls, no write) when
the file is absent, a label or delimiter cannot be located, or an extracted
slice is not valid JSON. A slice parsing to a non-object also produces no
calls and no write (the script would crash at `.keys()` before either). An
empty retry worklist returns without rewriting the file. -/
def retry_failed_routes (jsContent : Option (List Char))
    (fetchS fetchH : List Char → List Json) : RepairOut :=
  match jsContent with
  | none => ⟨[], [], none⟩
  | some content =>
    match extractEmbedded content with
    | none => ⟨[], [], none⟩
    | some (s1, s2) =>
      match jsonLoads s1, jsonLoads s2 with
      | some (.obj a), some (.obj b) =>
        if (routesToRetry a b).isEmpty then ⟨[], [], none⟩
        else
          let r := mergeLoop fetchS fetchH (routesToRetry a b) a b
          ⟨r.2.2.1, r.2.2.2, some (writeEmbedded r.1 r.2.1)⟩
      | _, _ => ⟨[], [], none⟩

/-- A repair run over the pair (embedded file, canonical file): only the
embedded file is ever rewritten; `retry-failed-routes.py` never touches the
canonical reference file. -/
def repairFiles (files : Option (List Char) × Option (List Char))
    (fetchS fetchH : List Char → List Json) :
    Option (List Char) × Option (List Char) :=
  match (retry_failed_routes files.1 fetchS fetchH).written with
  | some w => (some w, files.2)
  | none => (files.1, files.2)

/-- The field of an object value at a key. -/
def fieldOf : Json → List Char → Option Json
  | .obj fs, k => lookupKey fs k
  | _, _ => none

/-! ## Fetcher and collector lemmas -/

/-- The backoff seconds slept (in `unit`s) by `k` consecutive rate-limited
attempts starting at attempt index `a`: `(a+1) + (a+2) + ... + (a+k)`. -/
def rateWaits : Nat → Nat → Nat
  | _, 0 => 0
  | a, k + 1 => (a + 1) + rateWaits (a + 1) k

theorem fetch_rates (unit flat : Nat) (process : List Entity → Except Unit (List Json))
    (resps : Nat → Resp) : ∀ (k a rem : Nat) (es : List Entity) (out : List Json),
    k < rem → (∀ i, i < k → resps (a + i) = .rate) → resps (a + k) = .ok es →
    process es = .ok out →
    fetchAux unit flat process resps a rem = (out, unit * rateWaits a k) := by
  intro k
  induction k with
  | zero =>
    intro a rem es out hrem _ hok hproc
    cases rem with
    | zero => omega
    | succ rem' =>
      rw [Nat.add_zero] at hok
      simp only [fetchAux, hok, hproc, rateWaits]
      simp
  | succ k ih =>
    intro a rem es out hrem hrate hok hproc
    cases rem with
    | zero => omega
    | succ rem' =>
      have hr0 : resps a = .rate := by
        have := hrate 0 (by omega)
        rwa [Nat.add_zero] at this
      have hrem' : rem' ≠ 0 := by omega
      have hih := ih (a + 1) rem' es out (by omega)
        (fun i hi => by
          have := hrate (i + 1) (by omega)
          rwa [show a + (i + 1) = a + 1 + i by omega] at this)
        (by rwa [show a + (k + 1) = a + 1 + k by omega] at hok)
        hproc
      simp only [fetchAux, hr0, if_neg hrem', hih, rateWaits]
      simp only [Prod.mk.injEq]
      exact ⟨trivial, by ring⟩

theorem fetch_exhaust (unit flat : Nat) (process : List Entity → Except Unit (List Json))
    (resps : Nat → Resp) : ∀ (rem a : Nat),
    (∀ i, i < rem → resps (a + i) = .rate ∨ resps (a + i) = .err ∨
      ∃ es, resps (a + i) = .ok es ∧ process es = .error ()) →
    (fetchAux unit flat process resps a rem).1 = [] := by
  intro rem
  induction rem with
  | zero => intro a _; rfl
  | succ rem' ih =>
    intro a h
    have h0 := h 0 (by omega)
    rw [Nat.add_zero] at h0
    have hshift : ∀ i, i < rem' → resps (a + 1 + i) = .rate ∨ resps (a + 1 + i) = .err ∨
        ∃ es, resps (a + 1 + i) = .ok es ∧ process es = .error () := by
      intro i hi
      have := h (i + 1) (by omega)
      rwa [show a + (i + 1) = a + 1 + i by omega] at this
    rcases h0 with h0 | h0 | ⟨es, hes, herr⟩
    · by_cases hr : rem' = 0
      · simp only [fetchAux, h0, if_pos hr]
      · simp only [fetchAux, h0, if_neg hr]
        exact ih (a + 1) hshift
    · by_cases hr : rem' = 0
      · simp only [fetchAux, h0, if_pos hr]
      · simp only [fetchAux, h0, if_neg hr]
        exact ih (a + 1) hshift
    · by_cases hr : rem' = 0
      · simp only [fetchAux, hes, herr, if_pos hr]
      · simp only [fetchAux, hes, herr, if_neg hr]
        exact ih (a + 1) hshift

theorem processStops_ok_of : ∀ es : List Entity,
    (∀ e ∈ es, hasCoords e = true → (convCoords e).isSome) →
    processStops es = .ok ((es.filter hasCoords).map mkStop)
  | [], _ => rfl
  | e :: es, h => by
    have ht := processStops_ok_of es fun x hx => h x (by simp [hx])
    by_cases hc : hasCoords e = true
    · have hsome := h e (by simp) hc
      rw [processStops]
      rw [if_pos hc]
      cases hcv : convCoords e with
      | none => rw [hcv] at hsome; simp at hsome
      | some p =>
        rw [ht]
        simp [List.filter_cons, hc, Except.map]
    · rw [processStops, if_neg hc, ht]
      have hc' : hasCoords e = false := by
        cases hv : hasCoords e with
        | false => rfl
        | true => exact absurd hv hc
      simp [List.filter_cons, hc']

theorem processStops_err_of : ∀ (es : List Entity) (e : Entity), e ∈ es →
    hasCoords e = true → convCoords e = none → processStops es = .error ()
  | [], e, he, _, _ => absurd he (by simp)
  | e0 :: es, e, he, hc, hn => by
    rw [processStops]
    by_cases hc0 : hasCoords e0 = true
    · rw [if_pos hc0]
      cases hcv : convCoords e0 with
      | none => rfl
      | some p =>
        have hne : e ≠ e0 := by
          intro rfl0
          rw [rfl0] at hn
          rw [hn] at hcv
          exact Option.noConfusion hcv
        have hmem : e ∈ es := by
          rcases List.mem_cons.mp he with h | h
          · exact absurd h hne
          · exact h
        rw [processStops_err_of es e hmem hc hn]
        rfl
    · rw [if_neg hc0]
      have hne : e ≠ e0 := by
        intro rfl0
        rw [rfl0] at hc
        exact hc0 hc
      have hmem : e ∈ es := by
        rcases List.mem_cons.mp he with h | h
        · exact absurd h hne
        · exact h
      exact processStops_err_of es e hmem hc hn

/-! ## Worklist and merge-loop lemmas -/

theorem bNodup_iff (l : List (List Char)) : bNodup l = true ↔ l.Nodup := by
  induction l with
  | nil => simp [bNodup]
  | cons x t ih =>
    rw [bNodup, Bool.and_eq_true, List.nodup_cons, ih]
    constructor
    · rintro ⟨h1, h2⟩
      refine ⟨fun hm => ?_, h2⟩
      rw [(bMem_iff t x).mpr hm] at h1
      simp at h1
    · rintro ⟨h1, h2⟩
      refine ⟨?_, h2⟩
      cases hv : bMem t x with
      | false => rfl
      | true => exact absurd ((bMem_iff t x).mp hv) h1

theorem memKey_setKey_ne (m : List (List Char × Json)) (r : List Char) (v : Json)
    (r' : List Char) (h : r' ≠ r) : memKey (setKey m r v) r' = memKey m r' := by
  induction m with
  | nil =>
    simp only [setKey, memKey]
    rw [if_neg fun hc => h hc.symm]
  | cons p t ih =>
    obtain ⟨k', v'⟩ := p
    by_cases hk : k' = r
    · rw [setKey, if_pos hk, memKey, memKey, hk]
    · rw [setKey, if_neg hk, memKey, memKey, ih]

theorem mergeLoop_calls (fS fH : List Char → List Json) :
    ∀ (l : List (List Char)) (a b : List (List Char × Json)), l.Nodup →
    ((mergeLoop fS fH l a b).2.2.1 = l.filter fun r => !memKey a r) ∧
    ((mergeLoop fS fH l a b).2.2.2 = l.filter fun r => !memKey b r)
  | [], a, b, _ => ⟨rfl, rfl⟩
  | r :: rest, a, b, hnd => by
    have hrrest : r ∉ rest := (List.nodup_cons.mp hnd).1
    have hndrest : rest.Nodup := (List.nodup_cons.mp hnd).2
    have key : ∀ (m : List (List Char × Json)) (v : List Json), ∀ r' ∈ rest,
        memKey (if memKey m r then m
          else if v.isEmpty then m else setKey m r (.arr v)) r' = memKey m r' := by
      intro m v r' hr'
      have hne : r' ≠ r := fun h => hrrest (h ▸ hr')
      by_cases h1 : memKey m r
      · rw [if_pos h1]
      · rw [if_neg h1]
        by_cases h2 : v.isEmpty
        · rw [if_pos h2]
        · rw [if_neg h2]
          exact memKey_setKey_ne m r _ r' hne
    obtain ⟨ih1, ih2⟩ := mergeLoop_calls fS fH rest
      (if memKey a r then a
        else if (fS r).isEmpty then a else setKey a r (.arr (fS r)))
      (if memKey b r then b
        else if (fH r).isEmpty then b else setKey b r (.arr (fH r))) hndrest
    have hfa : (List.filter (fun r' => !memKey (if memKey a r then a
        else if (fS r).isEmpty then a else setKey a r (.arr (fS r))) r') rest)
        = rest.filter fun r' => !memKey a r' :=
      List.filter_congr fun x hx => by rw [key a (fS r) x hx]
    have hfb : (List.filter (fun r' => !memKey (if memKey b r then b
        else if (fH r).isEmpty then b else setKey b r (.arr (fH r))) r') rest)
        = rest.filter fun r' => !memKey b r' :=
      List.filter_congr fun x hx => by rw [key b (fH r) x hx]
    rw [mergeLoop]
    refine ⟨?_, ?_⟩
    · show (if memKey a r then ([] : List (List Char)) else [r]) ++ _ = _
      rw [ih1, hfa, List.filter_cons]
      by_cases hmem : memKey a r
      · rw [if_pos hmem, hmem]
        rfl
      · have hf : memKey a r = false := by
          cases hv : memKey a r with
          | false => rfl
          | true => exact absurd hv hmem
        rw [if_neg hmem, hf]
        rfl
    · show (if memKey b r then ([] : List (List Char)) else [r]) ++ _ = _
      rw [ih2, hfb, List.filter_cons]
      by_cases hmem : memKey b r
      · rw [if_pos hmem, hmem]
        rfl
      · have hf : memKey b r = false := by
          cases hv : memKey b r with
          | false => rfl
          | true => exact absurd hv hmem
        rw [if_neg hmem, hf]
        rfl

theorem mem_stopsOnly (a b : List (List Char × Json)) (r : List Char) :
    r ∈ stopsOnlyRouteIds a b ↔ memKey a r = true ∧ memKey b r = false := by
  rw [stopsOnlyRouteIds, List.mem_filter, ← memKey_iff, Bool.not_eq_true']

theorem mem_shapesOnly (a b : List (List Char × Json)) (r : List Char) :
    r ∈ shapesOnlyRouteIds a b ↔ memKey b r = true ∧ memKey a r = false := by
  rw [shapesOnlyRouteIds, List.mem_filter, ← memKey_iff, Bool.not_eq_true']

theorem disjoint_only (a b : List (List Char × Json)) :
    ∀ r, r ∈ stopsOnlyRouteIds a b → r ∈ shapesOnlyRouteIds a b → False := by
  intro r h1 h2
  rw [mem_stopsOnly] at h1
  rw [mem_shapesOnly] at h2
  rw [h1.1] at h2
  exact Bool.noConfusion h2.2

theorem nodup_routesToRetry (a b : List (List Char × Json))
    (ha : bNodup (keyList a) = true) (hb : bNodup (keyList b) = true) :
    (routesToRetry a b).Nodup := by
  rw [routesToRetry]
  apply List.Nodup.append
  · exact List.Nodup.filter _ ((bNodup_iff _).mp ha)
  · exact List.Nodup.filter _ ((bNodup_iff _).mp hb)
  · intro r h1 h2
    exact disjoint_only a b r h1 h2

theorem filter_stopsOnly_a (a b : List (List Char × Json)) :
    (stopsOnlyRouteIds a b).filter (fun r => !memKey a r) = [] := by
  rw [List.filter_eq_nil_iff]
  intro r hr
  rw [mem_stopsOnly] at hr
  simp [hr.1]

theorem filter_shapesOnly_a (a b : List (List Char × Json)) :
    (shapesOnlyRouteIds a b).filter (fun r => !memKey a r) = shapesOnlyRouteIds a b := by
  rw [List.filter_eq_self]
  intro r hr
  rw [mem_shapesOnly] at hr
  simp [hr.2]

theorem filter_stopsOnly_b (a b : List (List Char × Json)) :
    (stopsOnlyRouteIds a b).filter (fun r => !memKey b r) = stopsOnlyRouteIds a b := by
  rw [List.filter_eq_self]
  intro r hr
  rw [mem_stopsOnly] at hr
  simp [hr.2]

theorem filter_shapesOnly_b (a b : List (List Char × Json)) :
    (shapesOnlyRouteIds a b).filter (fun r => !memKey b r) = [] := by
  rw [List.filter_eq_nil_iff]
  intro r hr
  rw [mem_shapesOnly] at hr
  simp [hr.1]

/-- The calls a repair run makes on wellformed parsed maps: stop fetches are
exactly the shapes-only routes, shape fetches exactly the stops-only ones. -/
theorem mergeLoop_calls_only (fS fH : List Char → List Json)
    (a b : List (List Char × Json))
    (ha : bNodup (keyList a) = true) (hb : bNodup (keyList b) = true) :
    (mergeLoop fS fH (routesToRetry a b) a b).2.2.1 = shapesOnlyRouteIds a b ∧
    (mergeLoop fS fH (routesToRetry a b) a b).2.2.2 = stopsOnlyRouteIds a b := by
  obtain ⟨h1, h2⟩ := mergeLoop_calls fS fH (routesToRetry a b) a b
    (nodup_routesToRetry a b ha hb)
  rw [routesToRetry] at h1 h2
  rw [List.filter_append] at h1 h2
  rw [filter_stopsOnly_a, filter_shapesOnly_a] at h1
  rw [filter_stopsOnly_b, filter_shapesOnly_b] at h2
  constructor
  · rw [routesToRetry, h1]
    rfl
  · rw [routesToRetry, h2]
    simp

/-! ## Parsed objects have unique keys -/

theorem keyList_setKey (m : List (List Char × Json)) (k : List Char) (v : Json) :
    keyList (setKey m k v) =
      if memKey m k then keyList m else keyList m ++ [k] := by
  induction m with
  | nil => rfl
  | cons p t ih =>
    obtain ⟨k', v'⟩ := p
    by_cases hk : k' = k
    · have hmem : memKey ((k', v') :: t) k = true := by rw [memKey, if_pos hk]
      rw [setKey, if_pos hk, if_pos hmem]
      simp only [keyList, List.map_cons, hk]
    · have hmem : memKey ((k', v') :: t) k = memKey t k := by rw [memKey, if_neg hk]
      rw [setKey, if_neg hk, hmem]
      show k' :: keyList (setKey t k v) = _
      rw [ih]
      by_cases hm : memKey t k
      · rw [if_pos hm, if_pos hm]
        rfl
      · rw [if_neg hm, if_neg hm]
        show _ = (k' :: keyList t) ++ [k]
        rw [List.cons_append]

theorem bNodup_keyList_setKey (m : List (List Char × Json)) (k : List Char) (v : Json)
    (h : bNodup (keyList m) = true) : bNodup (keyList (setKey m k v)) = true := by
  rw [keyList_setKey]
  by_cases hm : memKey m k
  · rw [if_pos hm]
    exact h
  · rw [if_neg hm]
    rw [bNodup_iff] at h ⊢
    refine List.Nodup.append h (List.nodup_singleton k) ?_
    intro x hx hy
    rw [List.mem_singleton] at hy
    subst hy
    exact hm ((memKey_iff m x).mpr hx)

theorem bNodup_dedupAux : ∀ (fs acc : List (List Char × Json)),
    bNodup (keyList acc) = true → bNodup (keyList (dedupAux acc fs)) = true
  | [], _, h => h
  | (k, v) :: t, acc, h =>
    bNodup_dedupAux t (setKey acc k v) (bNodup_keyList_setKey acc k v h)

/-- Building a dict from any pair sequence yields unique keys. -/
theorem bNodup_dedupFields (fs : List (List Char × Json)) :
    bNodup (keyList (dedupFields fs)) = true :=
  bNodup_dedupAux fs [] rfl

theorem parseNumCore_is_num (neg : Bool) (cs1 : List Char) (j : Json) (r : List Char)
    (h : parseNumCore neg cs1 = some (j, r)) : ∃ m d, j = .num m d := by
  unfold parseNumCore at h
  rcases htd : takeDigits cs1 with ⟨ip, cs2⟩
  rw [htd] at h
  dsimp only at h
  by_cases hip : ip.isEmpty
  · rw [if_pos hip] at h
    exact absurd h (by simp)
  · rw [if_neg hip] at h
    cases cs2 with
    | nil =>
      simp only [Option.some.injEq, Prod.mk.injEq] at h
      exact ⟨_, _, h.1.symm⟩
    | cons c r2 =>
      dsimp only at h
      by_cases hc : c = '.'
      · rw [if_pos hc] at h
        rcases htd2 : takeDigits r2 with ⟨fp, cs3⟩
        rw [htd2] at h
        dsimp only at h
        by_cases hfp : fp.isEmpty
        · rw [if_pos hfp] at h
          exact absurd h (by simp)
        · rw [if_neg hfp] at h
          simp only [Option.some.injEq, Prod.mk.injEq] at h
          exact ⟨_, _, h.1.symm⟩
      · rw [if_neg hc] at h
        simp only [Option.some.injEq, Prod.mk.injEq] at h
        exact ⟨_, _, h.1.symm⟩

theorem parseNum_is_num (cs : List Char) (j : Json) (r : List Char)
    (h : parseNum cs = some (j, r)) : ∃ m d, j = .num m d := by
  cases cs with
  | nil => exact absurd h (by simp [parseNum])
  | cons c t =>
    rw [parseNum] at h
    by_cases hc : c = '-'
    · rw [if_pos hc] at h
      exact parseNumCore_is_num _ _ _ _ h
    · rw [if_neg hc] at h
      exact parseNumCore_is_num _ _ _ _ h

/-- Any object the parser produces has unique keys: the object branch passes
the member list through `dedupFields` (a Python dict is built from the
members). -/
theorem parseVal_obj_nodup : ∀ (f : Nat) (cs : List Char)
    (fs : List (List Char × Json)) (r : List Char),
    parseVal f cs = some (.obj fs, r) → bNodup (keyList fs) = true := by
  intro f cs fs r h
  cases f with
  | zero =>
    rw [show parseVal 0 cs = none from by cases cs <;> rfl] at h
    exact absurd h (by simp)
  | succ f =>
    cases cs with
    | nil => exact absurd h (by simp [parseVal])
    | cons c rest =>
      by_cases h1 : c = '"'
      · subst h1
        rw [parseVal_quote] at h
        rcases hsb : parseStrBody rest with _ | ⟨s, t⟩ <;> rw [hsb] at h <;> simp at h
      · by_cases h2 : c = '['
        · subst h2
          rw [parseVal_open_arr] at h
          rcases hsw : skipWs rest with _ | ⟨c1, r1⟩ <;> rw [hsw] at h
          · exact absurd h (by simp)
          · dsimp only at h
            by_cases hc1 : c1 = ']'
            · rw [if_pos hc1] at h
              simp at h
            · rw [if_neg hc1] at h
              rcases hpi : parseItems f (c1 :: r1) with _ | ⟨xs, t⟩ <;>
                rw [hpi] at h <;> simp at h
        · by_cases h3 : c = '\x7b'
          · subst h3
            rw [parseVal_open_obj] at h
            rcases hsw : skipWs rest with _ | ⟨c1, r1⟩ <;> rw [hsw] at h
            · exact absurd h (by simp)
            · dsimp only at h
              by_cases hc1 : c1 = '\x7d'
              · rw [if_pos hc1] at h
                simp only [Option.some.injEq, Prod.mk.injEq, Json.obj.injEq] at h
                rw [← h.1]
                rfl
              · rw [if_neg hc1] at h
                rcases hpf : parseFields f (c1 :: r1) with _ | ⟨gs, t⟩ <;> rw [hpf] at h
                · exact absurd h (by simp)
                · simp only [Option.map_some', Option.some.injEq, Prod.mk.injEq,
                    Json.obj.injEq] at h
                  rw [← h.1]
                  exact bNodup_dedupFields gs
          · by_cases h4 : (c = '-' || c.isDigit) = true
            · rw [parseVal_to_num f c rest h1 h2 h3 h4] at h
              obtain ⟨m, d, hj⟩ := parseNum_is_num _ _ _ h
              exact absurd hj (by simp)
            · rw [parseVal.eq_def] at h
              simp [h1, h2, h3, h4] at h

/-- Any top-level object `json.loads` returns has unique keys. -/
theorem jsonLoads_obj_nodup (cs : List Char) (fs : List (List Char × Json))
    (h : jsonLoads cs = some (.obj fs)) : bNodup (keyList fs) = true := by
  rw [jsonLoads] at h
  rcases hpv : parseVal (cs.length + 1) (skipWs cs) with _ | ⟨j, r⟩ <;> rw [hpv] at h
  · exact absurd h (by simp)
  · dsimp only at h
    by_cases he : (skipWs r).isEmpty
    · rw [if_pos he] at h
      obtain rfl : j = .obj fs := Option.some.inj h
      exact parseVal_obj_nodup _ _ _ _ hpv
    · rw [if_neg he] at h
      exact absurd h (by simp)

theorem lookupKey_eq_none (fs : List (List Char × Json)) (k : List Char)
    (h : memKey fs k = false) : lookupKey fs k = none := by
  induction fs with
  | nil => rfl
  | cons p t ih =>
    obtain ⟨k', v⟩ := p
    rw [memKey] at h
    by_cases hk : k' = k
    · rw [if_pos hk] at h
      exact Bool.noConfusion h
    · rw [if_neg hk] at h
      rw [lookupKey, if_neg hk]
      exact ih h

theorem memKey_setKey_self (m : List (List Char × Json)) (k : List Char) (v : Json) :
    memKey (setKey m k v) k = true := by
  induction m with
  | nil => rw [setKey, memKey, if_pos rfl]
  | cons p t ih =>
    obtain ⟨k', v'⟩ := p
    by_cases hk : k' = k
    · rw [setKey, if_pos hk, memKey, if_pos rfl]
    · rw [setKey, if_neg hk, memKey, if_neg hk]
      exact ih

theorem lookupKey_setKey_self (m : List (List Char × Json)) (k : List Char) (v : Json) :
    lookupKey (setKey m k v) k = some v := by
  induction m with
  | nil => rw [setKey, lookupKey, if_pos rfl]
  | cons p t ih =>
    obtain ⟨k', v'⟩ := p
    by_cases hk : k' = k
    · rw [setKey, if_pos hk, lookupKey, if_pos rfl]
    · rw [setKey, if_neg hk, lookupKey, if_neg hk]
      exact ih

/-- When every attempt's response makes the record loop raise, the fetcher
sleeps `flat` seconds between attempts and ends with `[]`: `rem` attempts
sleep `(rem-1)*flat` seconds in total. -/
theorem fetchAux_err_step (unit flat : Nat)
    (process : List Entity → Except Unit (List Json)) (resps : Nat → Resp)
    (a rem : Nat) (es : List Entity) (h1 : resps a = .ok es)
    (h2 : process es = .error ()) (hr : ¬rem = 0) :
    fetchAux unit flat process resps a (rem + 1) =
      ((fetchAux unit flat process resps (a + 1) rem).1,
       flat + (fetchAux unit flat process resps (a + 1) rem).2) := by
  rw [fetchAux.eq_def]
  dsimp only
  rw [h1]
  dsimp only
  rw [h2]
  dsimp only
  rw [if_neg hr]

theorem fetch_err_all (unit flat : Nat) (process : List Entity → Except Unit (List Json))
    (resps : Nat → Resp)
    (h : ∀ i, ∃ es, resps i = .ok es ∧ process es = .error ()) :
    ∀ (rem a : Nat), fetchAux unit flat process resps a rem = ([], (rem - 1) * flat)
  | 0, _ => by simp [fetchAux]
  | rem + 1, a => by
    obtain ⟨es, h1, h2⟩ := h a
    cases rem with
    | zero =>
      simp only [fetchAux, h1, h2]
      simp
    | succ r =>
      rw [fetchAux_err_step unit flat process resps a (r + 1) es h1 h2
        (Nat.succ_ne_zero r)]
      rw [fetch_err_all unit flat process resps h (r + 1) (a + 1)]
      show (([] : List Json), flat + r * flat) = ([], (r + 1) * flat)
      simp only [Prod.mk.injEq]
      exact ⟨trivial, by ring⟩

/-! ## Concrete data for witnesses and counterexamples -/

/-- A stop entity with numeric coordinates and no `name` attribute. -/
def stopGood : Entity :=
  ⟨"good-stop".data, [(latKey, .num 423 1), (lonKey, .num (-711) 1)]⟩

/-- A stop entity whose `latitude` is present but not numeric: `float()`
raises on it. -/
def stopBad : Entity :=
  ⟨"bad-stop".data, [(latKey, .str "abc".data), (lonKey, .num 0 0)]⟩

/-- A shape entity carrying a polyline. -/
def shapeEnt : Entity := ⟨"sh1".data, [(polyKey, .str "poly".data)]⟩

def routeOneId : List Char := "1".data

def stopsRecs : Json := .arr [.num 1 0]

def shapeRecs : Json := .arr [.str "poly".data]

/-- A stops map holding route `1`. -/
def mapA0 : List (List Char × Json) := [(routeOneId, stopsRecs)]

/-- The shapes map after a repair fetched route `1`'s shapes. -/
def mapB1 : List (List Char × Json) := [(routeOneId, shapeRecs)]

/-- A shape fetcher that returns one record for every route. -/
def fetchShapesOne : List Char → List Json := fun _ => [.str "poly".data]

/-- A stops map holding routes `1` and `2`. -/
def demoA : List (List Char × Json) := [("1".data, .num 0 0), ("2".data, .num 0 0)]

/-- A shapes map holding routes `1` and `3`. -/
def demoB : List (List Char × Json) := [("1".data, .num 0 0), ("3".data, .num 0 0)]

/-- Two rate-limited attempts, then a successful shape response. -/
def rateTwice : Nat → Resp := fun i => if i < 2 then .rate else .ok [shapeEnt]

/-! ## The claims -/

/-- C1: for every Dataset (any pair of unique-key maps, including empty maps
and maps whose string values contain delimiter characters such as `;` and
newlines), reading the embedded form back recovers the dataset exactly:
`readEmbedded (writeEmbedded a b) = some (a, b)`. -/
theorem C1_embedded_roundtrip (a b : List (List Char × Json))
    (ha : Json.wf (.obj a) = true) (hb : Json.wf (.obj b) = true) :
    readEmbedded (writeEmbedded a b) = some (.obj a, .obj b) :=
  readEmbedded_write a b ha hb

/-- C1 witness: the round-trip at a concrete dataset whose string value
contains the delimiter sequence itself. -/
theorem C1_embedded_roundtrip_witness :
    Json.wf (.obj [(("r".data : List Char),
        Json.arr [.str ";\n\nconst busRouteShapes = ".data])]) = true ∧
    Json.wf (.obj ([] : List (List Char × Json))) = true ∧
    readEmbedded (writeEmbedded
        [("r".data, Json.arr [.str ";\n\nconst busRouteShapes = ".data])] [])
      = some (.obj [("r".data, Json.arr [.str ";\n\nconst busRouteShapes = ".data])],
              .obj []) :=
  ⟨by decide, by decide, C1_embedded_roundtrip _ _ (by decide) (by decide)⟩

/-- C2 (amended): an entity whose `latitude`/`longitude` are present but
non-numeric does NOT merely drop that entity: `float()` raises, the record
loop aborts, the whole response is discarded and the retry path runs; after
exhausting all attempts the fetch returns `[]` (having slept the flat error
delay between attempts), losing the response's well-formed entities too. -/
theorem C2_malformed_discards_response (es : List Entity) (e : Entity)
    (hmem : e ∈ es) (hc : hasCoords e = true) (hbad : convCoords e = none)
    (resps : Nat → Resp) (hres : ∀ i, resps i = .ok es) :
    processStops es = .error () ∧
    GenScript.get_route_stops resps = ([], 4) ∧
    RetryScript.get_route_stops resps = ([], 12) := by
  have herr := processStops_err_of es e hmem hc hbad
  refine ⟨herr, ?_, ?_⟩
  · exact fetch_err_all 2 2 processStops resps (fun i => ⟨es, hres i, herr⟩) 3 0
  · exact fetch_err_all 3 3 processStops resps (fun i => ⟨es, hres i, herr⟩) 5 0

/-- C2 witness: the amended behaviour at a concrete two-entity response. -/
theorem C2_malformed_discards_response_witness :
    stopBad ∈ [stopGood, stopBad] ∧ hasCoords stopBad = true ∧
    convCoords stopBad = none ∧
    (∀ i : Nat, (fun _ : Nat => Resp.ok [stopGood, stopBad]) i
        = .ok [stopGood, stopBad]) ∧
    (processStops [stopGood, stopBad] = .error () ∧
     GenScript.get_route_stops (fun _ => .ok [stopGood, stopBad]) = ([], 4) ∧
     RetryScript.get_route_stops (fun _ => .ok [stopGood, stopBad]) = ([], 12)) :=
  ⟨by simp, rfl, rfl, fun _ => rfl,
   C2_malformed_discards_response [stopGood, stopBad] stopBad (by simp) rfl rfl
     _ (fun _ => rfl)⟩

/-- C2 counterexample to the claimed behaviour: a response holding one
well-formed stop and one stop with a present-but-non-numeric latitude.  The
claim says the bad entity is dropped and the good one admitted without any
retry; in fact the fetch returns no records at all and slept 4 seconds of
error backoff (the retry path ran to exhaustion). -/
theorem C2_malformed_discards_response_cex :
    GenScript.get_route_stops (fun _ => .ok [stopGood, stopBad]) = ([], 4) ∧
    (4 : Nat) ≠ 0 := ⟨rfl, by decide⟩

/-- C3 (amended): a completed FIRST-PASS run does leave the two persisted
representations encoding the same dataset — `generate_bus_data` writes both
files from the same pair of in-memory maps, and each decodes back to exactly
that pair.  The repair run breaks the invariant (see the counterexample):
it rewrites only the embedded file. -/
theorem C3_firstpass_writes_agree (routes : List (List Char))
    (fS fH : List Char → List Json) (js canon : List Char)
    (h : generate_bus_data routes fS fH = some (js, canon))
    (hwa : Json.wf (.obj (routes.foldl (processRoute fS fH) ([], [])).1) = true)
    (hwb : Json.wf (.obj (routes.foldl (processRoute fS fH) ([], [])).2) = true) :
    readEmbedded js
        = some (.obj (routes.foldl (processRoute fS fH) ([], [])).1,
                .obj (routes.foldl (processRoute fS fH) ([], [])).2) ∧
    readCanonical canon
        = some (.obj (routes.foldl (processRoute fS fH) ([], [])).1,
                .obj (routes.foldl (processRoute fS fH) ([], [])).2) := by
  rw [generate_bus_data] at h
  by_cases hr : routes.isEmpty
  · rw [if_pos hr] at h
    exact absurd h (by simp)
  · rw [if_neg hr] at h
    dsimp only at h
    simp only [Option.some.injEq, Prod.mk.injEq] at h
    obtain ⟨h1, h2⟩ := h
    subst h1
    subst h2
    exact ⟨readEmbedded_write _ _ hwa hwb, readCanonical_write _ _ hwa hwb⟩

/-- C3 witness: the first-pass agreement at one concrete route. -/
theorem C3_firstpass_writes_agree_witness :
    generate_bus_data [routeOneId] (fun _ => [Json.num 1 0]) fetchShapesOne
      = some (writeEmbedded mapA0 mapB1, writeCanonical mapA0 mapB1) ∧
    Json.wf (.obj ([routeOneId].foldl
        (processRoute (fun _ => [Json.num 1 0]) fetchShapesOne) ([], [])).1) = true ∧
    Json.wf (.obj ([routeOneId].foldl
        (processRoute (fun _ => [Json.num 1 0]) fetchShapesOne) ([], [])).2) = true ∧
    (readEmbedded (writeEmbedded mapA0 mapB1)
        = some (.obj ([routeOneId].foldl
              (processRoute (fun _ => [Json.num 1 0]) fetchShapesOne) ([], [])).1,
            .obj ([routeOneId].foldl
              (processRoute (fun _ => [Json.num 1 0]) fetchShapesOne) ([], [])).2) ∧
     readCanonical (writeCanonical mapA0 mapB1)
        = some (.obj ([routeOneId].foldl
              (processRoute (fun _ => [Json.num 1 0]) fetchShapesOne) ([], [])).1,
            .obj ([routeOneId].foldl
              (processRoute (fun _ => [Json.num 1 0]) fetchShapesOne) ([], [])).2)) :=
  ⟨rfl, by decide, by decide,
   C3_firstpass_writes_agree [routeOneId] (fun _ => [Json.num 1 0]) fetchShapesOne
     (writeEmbedded mapA0 mapB1) (writeCanonical mapA0 mapB1) rfl
     (by decide) (by decide)⟩

/-- C3 counterexample: starting from agreeing files (route `1` has stops but
no shapes), a repair run whose shape fetch succeeds rewrites only the
embedded `.js` file; afterwards the two representations decode to different
datasets — the canonical `.json` is stale. -/
theorem C3_repair_breaks_agreement_cex :
    repairFiles (some (writeEmbedded mapA0 []), some (writeCanonical mapA0 []))
        (fun _ => []) fetchShapesOne
      = (some (writeEmbedded mapA0 mapB1), some (writeCanonical mapA0 [])) ∧
    readEmbedded (writeEmbedded mapA0 mapB1)
      ≠ readCanonical (writeCanonical mapA0 []) := by
  have hret : retry_failed_routes (some (writeEmbedded mapA0 []))
      (fun _ => []) fetchShapesOne
      = ⟨[], [routeOneId], some (writeEmbedded mapA0 mapB1)⟩ := by
    rw [retry_failed_routes]
    dsimp only
    rw [extractEmbedded_write]
    dsimp only
    rw [jsonLoads_ser _ (by decide), jsonLoads_ser _ (by decide)]
    dsimp only
    rw [if_neg (by decide)]
    rfl
  constructor
  · rw [repairFiles]
    dsimp only
    rw [hret]
  · have h1 := readEmbedded_write mapA0 mapB1 (by decide) (by decide)
    have h2 := readCanonical_write mapA0 [] (by decide) (by decide)
    rw [h1, h2]
    intro heq
    simp only [Option.some.injEq, Prod.mk.injEq, Json.obj.injEq] at heq
    have hB := heq.2
    rw [mapB1] at hB
    exact List.cons_ne_nil _ _ hB

/-- C4: a repair run fetches only the missing half of each incomplete route:
a stops-only route gets exactly one shape-collector call and no
stop-collector call, a shapes-only route the reverse, and a route present in
both maps is not fetched at all.  (`.2.2.1` are the routes the stop
collector ran for, `.2.2.2` those the shape collector ran for.) -/
theorem C4_repair_fetches_only_missing (fS fH : List Char → List Json)
    (a b : List (List Char × Json)) (r : List Char)
    (ha : bNodup (keyList a) = true) (hb : bNodup (keyList b) = true) :
    (r ∈ stopsOnlyRouteIds a b →
      r ∈ (mergeLoop fS fH (routesToRetry a b) a b).2.2.2 ∧
      r ∉ (mergeLoop fS fH (routesToRetry a b) a b).2.2.1) ∧
    (r ∈ shapesOnlyRouteIds a b →
      r ∈ (mergeLoop fS fH (routesToRetry a b) a b).2.2.1 ∧
      r ∉ (mergeLoop fS fH (routesToRetry a b) a b).2.2.2) ∧
    (memKey a r = true → memKey b r = true →
      r ∉ (mergeLoop fS fH (routesToRetry a b) a b).2.2.1 ∧
      r ∉ (mergeLoop fS fH (routesToRetry a b) a b).2.2.2) := by
  obtain ⟨hsc, hhc⟩ := mergeLoop_calls_only fS fH a b ha hb
  rw [hsc, hhc]
  refine ⟨fun h => ⟨h, fun h' => disjoint_only a b r h h'⟩,
          fun h => ⟨h, fun h' => disjoint_only a b r h' h⟩,
          fun h1 h2 => ⟨fun h' => ?_, fun h' => ?_⟩⟩
  · rw [mem_shapesOnly] at h'
    rw [h1] at h'
    exact Bool.noConfusion h'.2
  · rw [mem_stopsOnly] at h'
    rw [h2] at h'
    exact Bool.noConfusion h'.2

/-- C4 witness: route `2` has stops only, so the repair calls the shape
collector for it and not the stop collector. -/
theorem C4_repair_fetches_only_missing_witness :
    bNodup (keyList demoA) = true ∧ bNodup (keyList demoB) = true ∧
    (("2".data : List Char) ∈ stopsOnlyRouteIds demoA demoB →
      "2".data ∈ (mergeLoop fetchShapesOne fetchShapesOne
          (routesToRetry demoA demoB) demoA demoB).2.2.2 ∧
      "2".data ∉ (mergeLoop fetchShapesOne fetchShapesOne
          (routesToRetry demoA demoB) demoA demoB).2.2.1) ∧
    (("2".data : List Char) ∈ shapesOnlyRouteIds demoA demoB →
      "2".data ∈ (mergeLoop fetchShapesOne fetchShapesOne
          (routesToRetry demoA demoB) demoA demoB).2.2.1 ∧
      "2".data ∉ (mergeLoop fetchShapesOne fetchShapesOne
          (routesToRetry demoA demoB) demoA demoB).2.2.2) ∧
    (memKey demoA "2".data = true → memKey demoB "2".data = true →
      "2".data ∉ (mergeLoop fetchShapesOne fetchShapesOne
          (routesToRetry demoA demoB) demoA demoB).2.2.1 ∧
      "2".data ∉ (mergeLoop fetchShapesOne fetchShapesOne
          (routesToRetry demoA demoB) demoA demoB).2.2.2) :=
  ⟨by decide, by decide,
   C4_repair_fetches_only_missing fetchShapesOne fetchShapesOne demoA demoB
     "2".data (by decide) (by decide)⟩

/-- C5 (amended): for EVERY map — whether or not the key is present —
upserting an empty list changes nothing at either store site, so an absent
key stays absent; the repair-merge site never overwrites an existing key;
but the first-pass site is a plain dict assignment: a non-empty upsert
stores the new value under the key regardless of its prior presence,
replacing any previously stored value. -/
theorem C5_upsert_semantics (m : List (List Char × Json)) (r : List Char)
    (recs : List Json) (hne : recs.isEmpty = false) :
    storeFirstPass m r [] = m ∧ storeRepair m r [] = m ∧
    (memKey m r = false → memKey (storeFirstPass m r []) r = false ∧
      memKey (storeRepair m r []) r = false) ∧
    (memKey m r = true → storeRepair m r recs = m) ∧
    lookupKey (storeFirstPass m r recs) r = some (.arr recs) := by
  have h2 : storeRepair m r [] = m := by
    rw [storeRepair]
    by_cases hm : memKey m r
    · rw [if_pos hm]
    · rw [if_neg hm]
      rfl
  refine ⟨rfl, h2, fun hab => ⟨hab, ?_⟩, fun hmem => ?_, ?_⟩
  · rw [h2]
    exact hab
  · rw [storeRepair, if_pos hmem]
  · rw [storeFirstPass, hne]
    rw [if_neg Bool.false_ne_true]
    exact lookupKey_setKey_self m r (.arr recs)

/-- C5 witness: the upsert semantics at a one-route map. -/
theorem C5_upsert_semantics_witness :
    ([Json.num 2 0].isEmpty = false) ∧
    (storeFirstPass mapA0 routeOneId [] = mapA0 ∧
     storeRepair mapA0 routeOneId [] = mapA0 ∧
     (memKey mapA0 routeOneId = false →
       memKey (storeFirstPass mapA0 routeOneId []) routeOneId = false ∧
       memKey (storeRepair mapA0 routeOneId []) routeOneId = false) ∧
     (memKey mapA0 routeOneId = true →
       storeRepair mapA0 routeOneId [Json.num 2 0] = mapA0) ∧
     lookupKey (storeFirstPass mapA0 routeOneId [Json.num 2 0]) routeOneId
       = some (.arr [Json.num 2 0])) :=
  ⟨rfl, C5_upsert_semantics mapA0 routeOneId [Json.num 2 0] rfl⟩

/-- C5 counterexample: the first-pass store site overwrites.  Route `1` is
mapped to `[1]`; a later first-pass upsert with the non-empty `[2]` replaces
the value (the map is NOT left equal to its old state, contradicting "never
overwrites an existing key"). -/
theorem C5_overwrites_cex :
    storeFirstPass mapA0 routeOneId [Json.num 2 0]
      = [(routeOneId, Json.arr [Json.num 2 0])] ∧
    storeFirstPass mapA0 routeOneId [Json.num 2 0] ≠ mapA0 := by
  refine ⟨rfl, fun h => ?_⟩
  have h' : [(routeOneId, Json.arr [Json.num 2 0])] = mapA0 := h
  rw [mapA0, stopsRecs] at h'
  simp only [List.cons.injEq, Prod.mk.injEq, Json.arr.injEq, Json.num.injEq] at h'
  exact absurd h'.1.2.1.1 (by decide)

/-- C6: linear backoff.  With `k` rate-limited attempts before a success,
the fetcher waits `(attemptIndex+1) * unitDelay` before each retry —
`rateWaits 0 k = 1 + 2 + ... + k` units — with unit 2 s and cap 3 in the
first pass, unit 3 s and cap 5 in repair; for 429, 429, 200 the final
call's payload is returned and the total wait is `unitDelay*1 +
unitDelay*2`. -/
theorem C6_linear_backoff (resps : Nat → Resp) (es : List Entity) (k : Nat)
    (hrate : ∀ i, i < k → resps i = .rate) (hok : resps k = .ok es) :
    (k < 3 → GenScript.get_route_shapes resps
        = (processShapes es, 2 * rateWaits 0 k)) ∧
    (k < 5 → RetryScript.get_route_shapes resps
        = (processShapes es, 3 * rateWaits 0 k)) ∧
    (k = 2 → GenScript.get_route_shapes resps
        = (processShapes es, 2 * 1 + 2 * 2)) := by
  have hrate0 : ∀ i, i < k → resps (0 + i) = .rate := fun i hi => by
    rw [Nat.zero_add]
    exact hrate i hi
  have hok0 : resps (0 + k) = .ok es := by
    rw [Nat.zero_add]
    exact hok
  refine ⟨?_, ?_, ?_⟩
  · intro hk
    exact fetch_rates 2 2 processShapesE resps k 0 3 es (processShapes es)
      hk hrate0 hok0 rfl
  · intro hk
    exact fetch_rates 3 3 processShapesE resps k 0 5 es (processShapes es)
      hk hrate0 hok0 rfl
  · intro hk
    subst hk
    have h := fetch_rates 2 2 processShapesE resps 2 0 3 es (processShapes es)
      (by omega) hrate0 hok0 rfl
    have hg : GenScript.get_route_shapes resps
        = fetchAux 2 2 processShapesE resps 0 3 := rfl
    rw [hg, h]
    rfl

/-- C6 witness: the 429, 429, 200 scenario at a concrete oracle. -/
theorem C6_linear_backoff_witness :
    (∀ i, i < 2 → rateTwice i = .rate) ∧ rateTwice 2 = .ok [shapeEnt] ∧
    ((2 < 3 → GenScript.get_route_shapes rateTwice
        = (processShapes [shapeEnt], 2 * rateWaits 0 2)) ∧
     (2 < 5 → RetryScript.get_route_shapes rateTwice
        = (processShapes [shapeEnt], 3 * rateWaits 0 2)) ∧
     (2 = 2 → GenScript.get_route_shapes rateTwice
        = (processShapes [shapeEnt], 2 * 1 + 2 * 2))) :=
  ⟨fun i hi => if_pos hi, rfl,
   C6_linear_backoff rateTwice [shapeEnt] 2 (fun i hi => if_pos hi) rfl⟩

/-- C7: when every attempt is rate-limited or errors, all four collectors
return an explicit empty list — in the model they are total functions into
`List Json × Nat`, so no exception escapes, and the `[]` is indistinguishable
from an upstream empty result. -/
theorem C7_exhaustion_yields_empty (resps : Nat → Resp)
    (hbad : ∀ i, resps i = .rate ∨ resps i = .err) :
    (GenScript.get_route_stops resps).1 = [] ∧
    (GenScript.get_route_shapes resps).1 = [] ∧
    (RetryScript.get_route_stops resps).1 = [] ∧
    (RetryScript.get_route_shapes resps).1 = [] := by
  have h : ∀ i : Nat, resps (0 + i) = .rate ∨ resps (0 + i) = .err ∨
      ∃ es, resps (0 + i) = .ok es ∧ processStops es = .error () := by
    intro i
    rcases hbad (0 + i) with hx | hx
    · exact Or.inl hx
    · exact Or.inr (Or.inl hx)
  have h' : ∀ i : Nat, resps (0 + i) = .rate ∨ resps (0 + i) = .err ∨
      ∃ es, resps (0 + i) = .ok es ∧ processShapesE es = .error () := by
    intro i
    rcases hbad (0 + i) with hx | hx
    · exact Or.inl hx
    · exact Or.inr (Or.inl hx)
  exact ⟨fetch_exhaust 2 2 processStops resps 3 0 (fun i _ => h i),
         fetch_exhaust 2 2 processShapesE resps 3 0 (fun i _ => h' i),
         fetch_exhaust 3 3 processStops resps 5 0 (fun i _ => h i),
         fetch_exhaust 3 3 processShapesE resps 5 0 (fun i _ => h' i)⟩

/-- C7 witness: an oracle that rate-limits every attempt. -/
theorem C7_exhaustion_yields_empty_witness :
    (∀ i : Nat, (fun _ : Nat => Resp.rate) i = .rate ∨
       (fun _ : Nat => Resp.rate) i = .err) ∧
    ((GenScript.get_route_stops (fun _ => .rate)).1 = [] ∧
     (GenScript.get_route_shapes (fun _ => .rate)).1 = [] ∧
     (RetryScript.get_route_stops (fun _ => .rate)).1 = [] ∧
     (RetryScript.get_route_shapes (fun _ => .rate)).1 = []) :=
  ⟨fun _ => Or.inl rfl,
   C7_exhaustion_yields_empty (fun _ => .rate) (fun _ => Or.inl rfl)⟩

/-- C8: when the repair run's precondition fails — the embedded file is
absent, a label or delimiter cannot be located, or an extracted slice is not
valid JSON — the run makes no collector call and writes nothing, and the
file pair is left exactly as it was. -/
theorem C8_precondition_abort (files : Option (List Char) × Option (List Char))
    (fS fH : List Char → List Json)
    (h : files.1 = none ∨
      (∃ c, files.1 = some c ∧ extractEmbedded c = none) ∨
      (∃ c s1 s2, files.1 = some c ∧ extractEmbedded c = some (s1, s2) ∧
        (jsonLoads s1 = none ∨ jsonLoads s2 = none))) :
    retry_failed_routes files.1 fS fH = ⟨[], [], none⟩ ∧
    repairFiles files fS fH = files := by
  have hret : retry_failed_routes files.1 fS fH = ⟨[], [], none⟩ := by
    rcases h with h | ⟨c, hc, hext⟩ | ⟨c, s1, s2, hc, hext, hj⟩
    · rw [h, retry_failed_routes]
    · rw [hc, retry_failed_routes]
      dsimp only
      rw [hext]
    · rw [hc, retry_failed_routes]
      dsimp only
      rw [hext]
      dsimp only
      rcases hj with hj | hj
      · rw [hj]
      · rcases hj1 : jsonLoads s1 with _ | j
        · rfl
        · rw [hj]
          cases j <;> rfl
  refine ⟨hret, ?_⟩
  rw [repairFiles, hret]

/-- C8 witness: content in which the first label cannot be located. -/
theorem C8_precondition_abort_witness :
    ((some ("x".data : List Char), some ("y".data : List Char)).1 = none ∨
      (∃ c, (some ("x".data : List Char), some ("y".data : List Char)).1 = some c ∧
        extractEmbedded c = none) ∨
      (∃ c s1 s2,
        (some ("x".data : List Char), some ("y".data : List Char)).1 = some c ∧
        extractEmbedded c = some (s1, s2) ∧
        (jsonLoads s1 = none ∨ jsonLoads s2 = none))) ∧
    (retry_failed_routes (some ("x".data : List Char), some ("y".data : List Char)).1
        (fun _ => []) (fun _ => []) = ⟨[], [], none⟩ ∧
     repairFiles (some ("x".data : List Char), some ("y".data : List Char))
        (fun _ => []) (fun _ => [])
       = (some ("x".data : List Char), some ("y".data : List Char))) :=
  ⟨Or.inr (Or.inl ⟨"x".data, rfl, rfl⟩),
   C8_precondition_abort _ _ _ (Or.inr (Or.inl ⟨"x".data, rfl, rfl⟩))⟩

/-- C9: an admitted stop entity with numeric coordinates but no `name`
attribute yields a record whose name is the substituted default "Unknown",
and the record is still admitted into the response's output. -/
theorem C9_name_defaults (es : List Entity) (e : Entity) (hmem : e ∈ es)
    (hall : ∀ e' ∈ es, hasCoords e' = true → (convCoords e').isSome)
    (hc : hasCoords e = true) (hname : memKey e.attributes nameKey = false) :
    fieldOf (mkStop e) nameKey = some (.str unknownStr) ∧
    processStops es = .ok ((es.filter hasCoords).map mkStop) ∧
    mkStop e ∈ (es.filter hasCoords).map mkStop := by
  refine ⟨?_, processStops_ok_of es hall, ?_⟩
  · rw [mkStop, fieldOf, lookupKey, if_pos rfl, getKeyD,
      lookupKey_eq_none _ _ hname]
    rfl
  · exact List.mem_map_of_mem mkStop (List.mem_filter.mpr ⟨hmem, hc⟩)

/-- C9 witness: a nameless stop entity with numeric coordinates. -/
theorem C9_name_defaults_witness :
    stopGood ∈ [stopGood] ∧
    (∀ e' ∈ [stopGood], hasCoords e' = true → (convCoords e').isSome) ∧
    hasCoords stopGood = true ∧ memKey stopGood.attributes nameKey = false ∧
    (fieldOf (mkStop stopGood) nameKey = some (.str unknownStr) ∧
     processStops [stopGood] = .ok (([stopGood].filter hasCoords).map mkStop) ∧
     mkStop stopGood ∈ ([stopGood].filter hasCoords).map mkStop) := by
  have hall : ∀ e' ∈ [stopGood], hasCoords e' = true → (convCoords e').isSome := by
    intro e' he' _
    rw [List.mem_singleton.mp he']
    rfl
  exact ⟨List.mem_singleton.mpr rfl, hall, rfl, rfl,
    C9_name_defaults [stopGood] stopGood (List.mem_singleton.mpr rfl) hall rfl rfl⟩

/-- C10: for maps rehydrated by `json.loads` (whose keys are unique by
construction), the retry worklist is the stops-only ids followed by the
shapes-only ids, the two sets are disjoint, and each incomplete route
appears exactly once. -/
theorem C10_worklist_wellformed (s1 s2 : List Char) (a b : List (List Char × Json))
    (ha : jsonLoads s1 = some (.obj a)) (hb : jsonLoads s2 = some (.obj b)) :
    routesToRetry a b = stopsOnlyRouteIds a b ++ shapesOnlyRouteIds a b ∧
    (routesToRetry a b).Nodup ∧
    (∀ r, r ∈ stopsOnlyRouteIds a b → r ∈ shapesOnlyRouteIds a b → False) ∧
    (∀ r, r ∈ routesToRetry a b ↔
      (memKey a r = true ∧ memKey b r = false) ∨
      (memKey b r = true ∧ memKey a r = false)) := by
  have hna := jsonLoads_obj_nodup s1 a ha
  have hnb := jsonLoads_obj_nodup s2 b hb
  have hnd := nodup_routesToRetry a b hna hnb
  refine ⟨rfl, hnd, disjoint_only a b, fun r => ?_⟩
  rw [routesToRetry, List.mem_append, mem_stopsOnly, mem_shapesOnly]

/-- C10 witness: worklist wellformedness at serialized concrete maps. -/
theorem C10_worklist_wellformed_witness :
    jsonLoads (serJson 0 (.obj demoA)) = some (.obj demoA) ∧
    jsonLoads (serJson 0 (.obj demoB)) = some (.obj demoB) ∧
    (routesToRetry demoA demoB
        = stopsOnlyRouteIds demoA demoB ++ shapesOnlyRouteIds demoA demoB ∧
     (routesToRetry demoA demoB).Nodup ∧
     (∀ r, r ∈ stopsOnlyRouteIds demoA demoB →
        r ∈ shapesOnlyRouteIds demoA demoB → False) ∧
     (∀ r, r ∈ routesToRetry demoA demoB ↔
        (memKey demoA r = true ∧ memKey demoB r = false) ∨
        (memKey demoB r = true ∧ memKey demoA r = false))) :=
  ⟨jsonLoads_ser _ (by decide), jsonLoads_ser _ (by decide),
   C10_worklist_wellformed (serJson 0 (.obj demoA)) (serJson 0 (.obj demoB))
     demoA demoB (jsonLoads_ser _ (by decide)) (jsonLoads_ser _ (by decide))⟩
